import Mathlib

/-!
# FinForge `MoneyMulingDetector` — shallow embedding and verification

This file embeds the detection pipeline of `src/backend/detector.py`
(`MoneyMulingDetector`) in Lean 4 and proves/refutes the frozen claims about
it.  Conventions of the embedding:

* account identifiers are `String`s (compared as strings, as in the source);
* monetary amounts and all scores are exact rationals `ℚ` (the source uses
  IEEE floats; every claim checked here has tolerances that absorb the
  difference, and `round` is modelled as round-half-to-even as in Python);
* timestamps are `ℤ` (seconds); the pandas `Timestamp` arithmetic of the
  source only ever compares differences against the 72 h window;
* pandas `DataFrame`s of transactions become `List Tx`;
* `networkx.DiGraph` becomes an edge list with aggregated amounts, in the
  order produced by `pandas.groupby` (sorted by `(sender, receiver)`), which
  is exactly how `build_graph` constructs the graph;
* Python `set`/`dict` iteration: `dict`s preserve insertion order and are
  embedded as association lists built in insertion order; `set` iteration
  order is unspecified in Python (hash-seed dependent), so wherever a set
  iteration influences the result the embedding either takes the order as an
  explicit parameter (the suspect-id loop of `run`, see `runCore`) or fixes
  the sorted-by-identifier order that §5 of the spec prescribes.
-/

namespace FinForge

/-! ## Generic list utilities -/

/-- Keep the first occurrence of each element, preserving order
(Python `dict.fromkeys` / first-insertion set order). -/
def firstDedup {α : Type} [DecidableEq α] (l : List α) : List α :=
  l.foldl (fun acc x => if x ∈ acc then acc else acc ++ [x]) []

/-- Number of distinct elements of a list (Python `len(set(l))`). -/
def distinctCount {α : Type} [DecidableEq α] (l : List α) : Nat :=
  (firstDedup l).length

/-- Python `dict[k] = v` on an association list: overwrite in place if the
key exists, else append (insertion order preserved). -/
def dictInsert {α : Type} (m : List (String × α)) (k : String) (v : α) :
    List (String × α) :=
  if m.any (fun p => p.1 == k) then
    m.map (fun p => if p.1 == k then (k, v) else p)
  else m ++ [(k, v)]

/-- Python `dict.setdefault(k, []).append(v)` on an association list. -/
def dictAppend {α : Type} (m : List (String × List α)) (k : String) (v : α) :
    List (String × List α) :=
  if m.any (fun p => p.1 == k) then
    m.map (fun p => if p.1 == k then (p.1, p.2 ++ [v]) else p)
  else m ++ [(k, [v])]

/-- Lookup with default (Python `d.get(k, dflt)`). -/
def getD {α : Type} (m : List (String × α)) (k : String) (dflt : α) : α :=
  match m.find? (fun p => p.1 == k) with
  | some p => p.2
  | none => dflt

/-- Membership of a key in an association list (Python `k in d`). -/
def hasKey {α : Type} (m : List (String × α)) (k : String) : Bool :=
  m.any (fun p => p.1 == k)

/-- `max` of a list of rationals with a default for the empty list
(Python `max(l) if l else dflt`). -/
def listMaxD (l : List ℚ) (dflt : ℚ) : ℚ :=
  match l with
  | [] => dflt
  | x :: xs => xs.foldl max x

/-- Contiguous slice `xs[l : r+1]` of a list (Python slicing). -/
def slice {α : Type} (xs : List α) (l r : Nat) : List α :=
  (xs.drop l).take (r + 1 - l)

/-- Round half to even to an integer (Python `round(q)` semantics,
modelled exactly on `ℚ`). -/
def rhe (q : ℚ) : ℤ :=
  if q - ⌊q⌋ < 1/2 then ⌊q⌋
  else if 1/2 < q - ⌊q⌋ then ⌊q⌋ + 1
  else if ⌊q⌋ % 2 = 0 then ⌊q⌋ else ⌊q⌋ + 1

/-- Python `round(q, k)` on rationals. -/
def pyRound (q : ℚ) (k : ℕ) : ℚ :=
  (rhe (q * 10 ^ k) : ℚ) / 10 ^ k

/-- Strict lexicographic comparison of char lists by code point — Python's
string `<`.  (Structural recursion so the kernel can evaluate it; the
library `String.lt` decision procedure is defined by well-founded recursion
and does not reduce.) -/
def clLt : List Char → List Char → Bool
  | [], [] => false
  | [], _ :: _ => true
  | _ :: _, [] => false
  | a :: as, b :: bs =>
    decide (a.toNat < b.toNat) || (a.toNat == b.toNat && clLt as bs)

/-- Python string `a < b` (code-point lexicographic). -/
def strLtB (a b : String) : Bool := clLt a.data b.data

/-- Python string `a <= b`. -/
def strLeB (a b : String) : Bool := !(clLt b.data a.data)

/-- `strLeB` as a relation, for use with `List.insertionSort`. -/
def strLeP (a b : String) : Prop := strLeB a b = true

instance : DecidableRel strLeP := fun a b => instDecidableEqBool _ _

/-- Sort a list of identifiers (Python `sorted`; insertion sort is stable
and reduces in the kernel). -/
def sortStr (l : List String) : List String := l.insertionSort strLeP

/-- Lexicographic order on identifier pairs (pandas `groupby` key order). -/
def pairLeP (a b : String × String) : Prop :=
  (if a.1 == b.1 then strLeB a.2 b.2 else strLtB a.1 b.1) = true

instance : DecidableRel pairLeP := fun a b => instDecidableEqBool _ _

/-! ## Data model -/

/-- A cleaned transaction row (`transaction_id` is never consulted by the
pipeline after parsing, so it is not carried). -/
structure Tx where
  sender : String
  receiver : String
  amount : ℚ
  ts : ℤ
deriving DecidableEq, Repr

/-- A raw CSV row as it stands after the two pandas coercions of
`parse_csv`: `amount = none` models a failed `pd.to_numeric(...,
errors="coerce")` (NaN), `ts = none` a failed day-first
`pd.to_datetime(..., errors="coerce")` (NaT). -/
structure RawRow where
  sender : String
  receiver : String
  amount : Option ℚ
  ts : Option ℤ
deriving DecidableEq, Repr

/-- Directed graph as the aggregated edge list produced by
`build_graph` (`groupby(["sender_id","receiver_id"]).sum()` order:
sorted lexicographically by the pair). -/
structure Edge where
  src : String
  dst : String
  amount : ℚ
deriving DecidableEq, Repr

structure DiGraph where
  edges : List Edge
deriving DecidableEq, Repr

namespace DiGraph

/-- Node list in networkx insertion order (first endpoint appearance in
edge insertion order). -/
def nodes (g : DiGraph) : List String :=
  firstDedup (g.edges.flatMap (fun e => [e.src, e.dst]))

def hasNode (g : DiGraph) (n : String) : Bool := g.nodes.contains n

def outDegree (g : DiGraph) (n : String) : Nat :=
  (g.edges.filter (fun e => e.src == n)).length

def inDegree (g : DiGraph) (n : String) : Nat :=
  (g.edges.filter (fun e => e.dst == n)).length

/-- Successors in adjacency insertion order (for `build_graph` output this
is sorted by target id, since edges are inserted in sorted pair order). -/
def succs (g : DiGraph) (n : String) : List String :=
  (g.edges.filter (fun e => e.src == n)).map Edge.dst

def preds (g : DiGraph) (n : String) : List String :=
  (g.edges.filter (fun e => e.dst == n)).map Edge.src

/-- Aggregated `G[u][v]["amount"]` (`0` when the edge is absent, matching
the source's `.get("amount", 0)`). -/
def amt (g : DiGraph) (u v : String) : ℚ :=
  match g.edges.find? (fun e => e.src == u && e.dst == v) with
  | some e => e.amount
  | none => 0

/-- Induced subgraph on a node set (networkx `G.subgraph`). -/
def induced (g : DiGraph) (s : List String) : DiGraph :=
  ⟨g.edges.filter (fun e => s.contains e.src && s.contains e.dst)⟩

end DiGraph

/-! ## Module-level helpers of `detector.py` -/

/-- `_FRAUD_PREFIXES` from the source. -/
def fraudPfxs : List String :=
  ["NODE_", "NX_", "CYC3_", "CYC4_", "CYC5_",
   "SMURF_", "SF_", "SHELL_", "VEL_", "R5_",
   "SH_INT", "SH_SRC", "SH_DST", "SRC_"]

/-- Python `s.startswith(p)` (char-list level, so the kernel can evaluate
it; `String.isPrefixOf` works on byte positions by well-founded recursion
and does not reduce). -/
def startsWith (s p : String) : Bool := p.data.isPrefixOf s.data

/-- `_is_fraud(node)`. -/
def is_fraud (s : String) : Bool := fraudPfxs.any (fun p => startsWith s p)

/-- `_all_legit(nodes)`. -/
def all_legit (l : List String) : Bool :=
  l.all (fun n => startsWith n "LEGIT_")

/-! ## Class constants -/

def MIN_CYCLE_LENGTH : ℕ := 3
def MAX_CYCLE_LENGTH : ℕ := 5
def MIN_FAN_COUNT : ℕ := 10
def MERCHANT_THRESHOLD : ℕ := 100
def SHELL_MAX_TX_COUNT : ℕ := 4
def MIN_CYCLE_AMOUNT : ℚ := 5000
def FAN_OUT_THRESHOLD : ℕ := 10
def VELOCITY_WINDOW_SECONDS : ℤ := 72 * 3600
def VELOCITY_TX_THRESHOLD : ℕ := 10
def MAX_SCC_SIZE : ℕ := 40
def MAX_CYCLE_SEARCH_NODES : ℕ := 200

/-! ## `parse_csv`

The byte-level CSV reading and the two pandas coercions are external
library behaviour; the embedding starts from their row-level outcome
(`RawRow`).  `parse_csv` then drops exactly the rows whose `amount`
coercion produced NaN and the rows whose `timestamp` parse produced NaT
— and nothing else (in particular it does not look at
`sender_id`/`receiver_id`). -/

def parse_csv (rows : List RawRow) : List Tx :=
  rows.filterMap (fun r =>
    match r.amount, r.ts with
    | some a, some t => some ⟨r.sender, r.receiver, a, t⟩
    | _, _ => none)

/-! ## `build_graph` -/

def build_graph (df : List Tx) : DiGraph :=
  let c := df.filter (fun t => t.sender != t.receiver)
  let keys := (firstDedup (c.map (fun t => (t.sender, t.receiver)))).insertionSort pairLeP
  ⟨keys.map (fun k =>
    ⟨k.1, k.2,
     ((c.filter (fun t => t.sender == k.1 && t.receiver == k.2)).map Tx.amount).sum⟩)⟩

/-! ## Sliding-window machinery

The source's two-pointer loops keep a `left` pointer that, for each `right`,
is advanced while `ts[right] - ts[left] > window`.  Since the rows are
sorted by timestamp, the loop leaves `left` at the *smallest* index `l`
with `ts[right] - ts[l] ≤ window`, which is what `winLeft` computes
directly. -/

/-- Smallest `l ≤ r` such that `ts[r] - ts[l] ≤ wt`
(the two-pointer `left` for a given `right`). -/
def winLeft (ts : List ℤ) (wt : ℤ) (r : ℕ) : ℕ :=
  (((List.range (r + 1)).find?
    (fun l => decide (ts.getD r 0 - ts.getD l 0 ≤ wt)))).getD r

/-- `a ≤ b` on rows by timestamp — a stable sort by this models pandas
`sort_values("timestamp")` (tie order among equal timestamps never affects
the window statistics computed from the result). -/
def tsLeP (a b : Tx) : Prop := (decide (a.ts ≤ b.ts)) = true

instance : DecidableRel tsLeP := fun a b => instDecidableEqBool _ _

def sortByTs (rows : List Tx) : List Tx := rows.insertionSort tsLeP

/-- The `run` pre-pass for one account: maximum number of distinct senders
within any 72-hour window over the account's incoming transactions
(`detector.py` lines 408–420). -/
def maxWinDistinct (rows : List Tx) : ℕ :=
  let rows := sortByTs rows
  let ts := rows.map Tx.ts
  let sns := rows.map Tx.sender
  (List.range rows.length).foldl
    (fun mx r =>
      max mx (distinctCount (slice sns (winLeft ts VELOCITY_WINDOW_SECONDS r) r)))
    0

/-- The `detect_smurfing` high-velocity test for one account's incoming
rows: some 72-hour window holds ≥ 10 transactions from ≥ 10 distinct
senders (only tested when the account has ≥ 10 incoming rows). -/
def velocityFlag (rows : List Tx) : Bool :=
  if rows.length < VELOCITY_TX_THRESHOLD then false
  else
    let rows := sortByTs rows
    let ts := rows.map Tx.ts
    let sns := rows.map Tx.sender
    (List.range rows.length).any (fun r =>
      let l := winLeft ts VELOCITY_WINDOW_SECONDS r
      decide (VELOCITY_TX_THRESHOLD ≤ r + 1 - l) &&
      decide (VELOCITY_TX_THRESHOLD ≤ distinctCount (slice sns l r)))

/-! ## `detect_smurfing` -/

/-- Distinct counterparties of `a` across both directions (the whitelist
statistic `cp`). -/
def counterpartyCount (df : List Tx) (a : String) : ℕ :=
  distinctCount
    ((df.filter (fun t => t.sender == a)).map Tx.receiver ++
     (df.filter (fun t => t.receiver == a)).map Tx.sender)

/-- All accounts appearing in the table, sorted (pandas `groupby` index
order). -/
def allAccounts (df : List Tx) : List String :=
  sortStr (firstDedup (df.map Tx.sender ++ df.map Tx.receiver))

/-- The merchant whitelist: accounts with ≥ `MERCHANT_THRESHOLD` distinct
counterparties. -/
def merchant_whitelist (df : List Tx) : List String :=
  (allAccounts df).filter (fun a => decide (MERCHANT_THRESHOLD ≤ counterpartyCount df a))

def distinctSendersTo (df : List Tx) (a : String) : ℕ :=
  distinctCount ((df.filter (fun t => t.receiver == a)).map Tx.sender)

def distinctReceiversFrom (df : List Tx) (a : String) : ℕ :=
  distinctCount ((df.filter (fun t => t.sender == a)).map Tx.receiver)

/-- Receivers of the table in sorted order (`groupby("receiver_id")`
index). -/
def sortedReceivers (df : List Tx) : List String :=
  sortStr (firstDedup (df.map Tx.receiver))

def sortedSenders (df : List Tx) : List String :=
  sortStr (firstDedup (df.map Tx.sender))

/-- The `fan_in` accounts in groupby order. -/
def fanInAccts (df : List Tx) : List String :=
  (sortedReceivers df).filter
    (fun a => decide (MIN_FAN_COUNT ≤ distinctSendersTo df a) &&
              !(merchant_whitelist df).contains a)

/-- The `fan_out` accounts in groupby order. -/
def fanOutAccts (df : List Tx) : List String :=
  (sortedSenders df).filter
    (fun a => decide (FAN_OUT_THRESHOLD ≤ distinctReceiversFrom df a) &&
              !(merchant_whitelist df).contains a)

/-- `df2`: the table with whitelisted receivers removed. -/
def smurfDf2 (df : List Tx) : List Tx :=
  df.filter (fun t => !(merchant_whitelist df).contains t.receiver)

/-- The `high_velocity` accounts in groupby order. -/
def velocityAccts (df : List Tx) : List String :=
  (sortedReceivers (smurfDf2 df)).filter
    (fun a => velocityFlag ((smurfDf2 df).filter (fun t => t.receiver == a)))

/-- `detect_smurfing`, given the table: returns the pattern map
`account → [tags]` in dict insertion order (`fan_in` keys first, then new
`fan_out` keys, then new `high_velocity` keys; each group in sorted account
order, as produced by the pandas groupbys). -/
def detect_smurfing (df : List Tx) : List (String × List String) :=
  (velocityAccts df).foldl (fun m a => dictAppend m a "high_velocity")
    ((fanOutAccts df).foldl (fun m a => dictAppend m a "fan_out")
      ((fanInAccts df).foldl (fun m a => dictAppend m a "fan_in") []))

/-! ## `detect_cycles` -/

/-- One expansion step of forward reachability. -/
def reachStep (g : DiGraph) (cur : List String) : List String :=
  firstDedup (cur ++ cur.flatMap g.succs)

/-- Nodes reachable from `s` in `g` (including `s`). -/
def reachable (g : DiGraph) (s : String) : List String :=
  (reachStep g)^[g.nodes.length] [s]

/-- `u` and `v` lie on a common directed cycle of `g` (same SCC). -/
def mutualReach (g : DiGraph) (u v : String) : Bool :=
  (reachable g u).contains v && (reachable g v).contains u

/-- Strongly connected components of the subgraph of `g` induced on
`cands`, as lists of members, one per component, in first-member order. -/
def sccComps (g : DiGraph) (cands : List String) : List (List String) :=
  let sub := g.induced cands
  (cands.foldl
    (fun (acc : List (List String) × List String) n =>
      if acc.2.contains n then acc
      else
        let comp := cands.filter (fun v => mutualReach sub n v)
        (acc.1 ++ [comp], acc.2 ++ comp))
    ([], [])).1

/-- Descending-degree order used by `_trim_scc` (stable; ties keep the
sorted-by-identifier order, the deterministic choice §5 prescribes for the
source's set iteration). -/
def degGeP (g : DiGraph) (a b : String) : Prop :=
  (decide (g.inDegree b + g.outDegree b ≤ g.inDegree a + g.outDegree a)) = true

instance (g : DiGraph) : DecidableRel (degGeP g) := fun a b => instDecidableEqBool _ _

/-- `_trim_scc`. -/
def trim_scc (g : DiGraph) (nodes : List String) : List String :=
  if nodes.length ≤ MAX_SCC_SIZE then nodes
  else
    let sub := g.induced nodes
    ((sortStr nodes).insertionSort (degGeP sub)).take MAX_SCC_SIZE

/-- The global `MAX_CYCLE_SEARCH_NODES` budget of `detect_cycles`. -/
def cycleBudget (g : DiGraph) (sccNodes : List String) : List String :=
  if sccNodes.length ≤ MAX_CYCLE_SEARCH_NODES then sccNodes
  else
    let pinned := sccNodes.filter is_fraud
    let slots := MAX_CYCLE_SEARCH_NODES - pinned.length
    let rest := sccNodes.filter (fun n => !is_fraud n)
    pinned ++ ((sortStr rest).insertionSort (degGeP g)).take slots

/-- Depth-first enumeration of the elementary cycles through root `s`
whose other members are all `> s`: `path` is the current path from `s`,
`fuel` the number of nodes that may still be appended.  Each elementary
cycle of length ≤ `MAX_CYCLE_LENGTH` is produced exactly once, rooted at
its minimal member (the enumeration-order-independent set of cycles that
`nx.simple_cycles(..., length_bound)` yields). -/
def cyclesFromAux (g : DiGraph) (s : String) : List String → ℕ → List (List String)
  | path, fuel =>
    let cur := path.getLastD s
    (g.succs cur).flatMap (fun v =>
      (if v == s then [path] else []) ++
      (match fuel with
       | 0 => []
       | fuel' + 1 =>
         if path.contains v || strLtB v s || v == s then []
         else cyclesFromAux g s (path ++ [v]) fuel'))

/-- All elementary cycles of `g` of length ≤ `MAX_CYCLE_LENGTH`, each
listed once (rooted at its minimal member). -/
def simple_cycles (g : DiGraph) : List (List String) :=
  (sortStr g.nodes).flatMap (fun s => cyclesFromAux g s [s] (MAX_CYCLE_LENGTH - 1))

/-- Sum of the aggregated edge amounts along a cycle. -/
def cycle_total (g : DiGraph) (c : List String) : ℚ :=
  ((List.range c.length).map
    (fun i => g.amt (c.getD i "") (c.getD ((i + 1) % c.length) ""))).sum

/-- The amount gate of `detect_cycles` (lines 116–131): all-legit cycles
need `avg ≥ 25000` and `total ≥ 3·MIN_CYCLE_AMOUNT`; else a fraud-prefixed
member halves the threshold; else `total ≥ MIN_CYCLE_AMOUNT`. -/
def cycle_keep (g : DiGraph) (c : List String) : Bool :=
  let total := cycle_total g c
  let avg := total / (c.length : ℚ)
  if all_legit c then
    decide ((25000 : ℚ) ≤ avg) && decide (3 * MIN_CYCLE_AMOUNT ≤ total)
  else if c.any is_fraud then
    decide (MIN_CYCLE_AMOUNT * (1/2) ≤ total)
  else
    decide (MIN_CYCLE_AMOUNT ≤ total)

/-- Merge step of the union-find ring assembly: all existing classes
meeting cycle `c` are merged with `c`'s members. -/
def mergeCycle (parts : List (List String)) (c : List String) : List (List String) :=
  let hit := parts.filter (fun p => p.any (fun x => c.contains x))
  let rest := parts.filter (fun p => !p.any (fun x => c.contains x))
  rest ++ [firstDedup (hit.flatten ++ c)]

/-- The union-find classes over the members of the surviving cycles
(modelled by the partition the source's lazy-compression union-find
induces — §9 of the spec: "any correct union-find suffices"). -/
def cycleGroups (raw : List (List String)) : List (List String) :=
  raw.foldl mergeCycle []

/-- `f"RING_{idx:03d}"`. -/
def pad3 (k : ℕ) : String :=
  (if k < 10 then "00" else if k < 100 then "0" else "") ++ Nat.repr k

def mkRingId (k : ℕ) : String := "RING_" ++ pad3 k

/-- Order of ring classes: by lexicographically smallest member. -/
def groupLeP (a b : List String) : Prop :=
  strLeB ((sortStr a).headD "") ((sortStr b).headD "") = true

instance : DecidableRel groupLeP := fun a b => instDecidableEqBool _ _

structure CycleData where
  ring_map : List (String × String)
  rings : List (String × List String)
  member_cycles : List (String × List (List String))
  raw_cycles : List (List String)
  cycle_members : List String
deriving DecidableEq, Repr

/-- The node set `detect_cycles` hands to the cycle search: SCC members
(components of size ≥ 2, trimmed), minus the whitelist, under the global
budget. -/
def cycleSearchNodes (g : DiGraph) (wl : List String) : List String :=
  let cands := g.nodes.filter
    (fun n => decide (0 < g.inDegree n) && decide (0 < g.outDegree n))
  let sccs := (sccComps g cands).filter (fun c => decide (2 ≤ c.length))
  let sccNodes₀ := firstDedup ((sccs.map (fun c => trim_scc g c)).flatten)
  cycleBudget g (sccNodes₀.filter (fun n => !wl.contains n))

/-- The surviving cycles of `detect_cycles`: enumerated on the pruned
subgraph, kept when the length lies in `[3, 5]` and the amount gate
passes. -/
def rawCycles (g : DiGraph) (wl : List String) : List (List String) :=
  (simple_cycles (g.induced (cycleSearchNodes g wl))).filter
    (fun c => decide (MIN_CYCLE_LENGTH ≤ c.length) &&
              decide (c.length ≤ MAX_CYCLE_LENGTH) && cycle_keep g c)

/-- Label the union-find classes `RING_001`, `RING_002`, … in their sorted
order. -/
def mkRings (groups : List (List String)) : List (String × List String) :=
  groups.enum.map (fun p => (mkRingId (p.1 + 1), sortStr p.2))

/-- The `member_cycles` map: node → the surviving cycles containing it. -/
def memberCycles (raw : List (List String)) : List (String × List (List String)) :=
  raw.foldl (fun acc c => c.foldl (fun acc n => dictAppend acc n c) acc) []

/-- `detect_cycles` (the whitelist computed by `detect_smurfing` is taken
as the parameter `wl`, matching the instance attribute the source
reads). -/
def detect_cycles (g : DiGraph) (wl : List String) : CycleData :=
  let raw := rawCycles g wl
  let rings := mkRings ((cycleGroups raw).insertionSort groupLeP)
  { ring_map := rings.flatMap (fun p => p.2.map (fun m => (m, p.1))),
    rings := rings, member_cycles := memberCycles raw,
    raw_cycles := raw, cycle_members := firstDedup raw.flatten }

/-! ## `detect_shell_chains` -/

/-- Occurrences of `a` in the table (as sender plus as receiver) — the
`value_counts` statistic `tc`. -/
def txCount (df : List Tx) (a : String) : ℕ :=
  (df.filter (fun t => t.sender == a)).length +
  (df.filter (fun t => t.receiver == a)).length

/-- The "potential shell" set: low-activity accounts (1–4 transactions),
not whitelisted, not cycle members, present in the graph with in-degree
exactly 1 and out-degree ≥ 1.  This is the canonical (sorted) listing of
the set's elements; the Python walk iterates the set itself, in a
hash-seed-dependent order — `detect_shell_chains_from` takes that order
as a parameter. -/
def shellPot (g : DiGraph) (df : List Tx) (wl cycleMembers : List String) :
    List String :=
  ((allAccounts df).filter (fun a =>
    let c := txCount df a
    decide (1 ≤ c) && decide (c ≤ SHELL_MAX_TX_COUNT) &&
    !wl.contains a && !cycleMembers.contains a)).filter
  (fun n => g.hasNode n && decide (g.inDegree n = 1) && decide (1 ≤ g.outDegree n))

/-- The backward half of the chain walk (lines 242–248): prepend potential
shells following unique predecessors; a non-potential predecessor is
prepended once and stops the walk.  `fuel` only bounds the recursion — with
`fuel > |pot|` it never runs out, because each iteration prepends the
current node and the guard requires the current node to be new. -/
def shellBack (g : DiGraph) (pot : List String) :
    List String → String → ℕ → List String
  | seg, _, 0 => seg
  | seg, curr, fuel + 1 =>
    if pot.contains curr && !seg.contains curr then
      let seg' := curr :: seg
      match g.preds curr with
      | [] => seg'
      | prev :: _ =>
        if pot.contains prev then shellBack g pot seg' prev fuel
        else prev :: seg'
    else seg

/-- The forward half of the chain walk (lines 250–258): follow first
successors, appending; a successor that is not a fresh potential shell is
appended once and stops the walk. -/
def shellFwd (g : DiGraph) (pot : List String) :
    List String → String → ℕ → List String
  | seg, _, 0 => seg
  | seg, curr, fuel + 1 =>
    match g.succs curr with
    | [] => seg
    | nxt :: _ =>
      if pot.contains nxt && !seg.contains nxt then
        shellFwd g pot (seg ++ [nxt]) nxt fuel
      else seg ++ [nxt]

/-- The `detect_shell_chains` fold for a given iteration order `potOrd` of
the potential-shell set: the source iterates a Python **set** here, so the
order is hash-seed dependent; `potOrd` ranges over the listings of
`shellPot ...` (membership tests are order-insensitive, iteration order is
not).  Returns the `shell_map` of potential-shell member → accepted-chain
length, whose key insertion order inherits `potOrd` — and with it the
order in which `run` later labels the shell rings. -/
def detect_shell_chains_from (g : DiGraph) (potOrd : List String) :
    List (String × ℕ) :=
  let fuel := g.nodes.length + potOrd.length + 1
  (potOrd.foldl
    (fun (acc : List (String × ℕ) × List String) start =>
      if acc.2.contains start then acc
      else
        let seg₀ := shellBack g potOrd [] start fuel
        let seg := shellFwd g potOrd seg₀ (seg₀.getLastD start) fuel
        if decide (4 ≤ seg.length) then
          let shells := seg.filter (fun n => potOrd.contains n)
          if decide (2 ≤ shells.length) then
            (shells.foldl (fun m n => dictInsert m n seg.length) acc.1,
             acc.2 ++ shells)
          else acc
        else acc)
    ([], [])).1

/-- `detect_shell_chains` with the canonical (sorted) listing of the pot
set — one possible iteration order; the order-insensitive claims use this
determinization, while C9 quantifies over the order through
`detect_shell_chains_from`. -/
def detect_shell_chains (g : DiGraph) (df : List Tx)
    (wl cycleMembers : List String) : List (String × ℕ) :=
  detect_shell_chains_from g (shellPot g df wl cycleMembers)

/-! ## Betweenness centrality

`nx.betweenness_centrality` on the small induced ring subgraphs, computed
brute-force: `walkCount g s t k` counts walks of length `k`; the number of
shortest `s→t` paths is the walk count at the smallest `k` with a positive
count (minimal-length walks are exactly the shortest paths).  Directed
normalization divides by `(n-1)(n-2)` for `n > 2` and is skipped for
`n ≤ 2`, as in networkx. -/

def walkCount (g : DiGraph) (s t : String) : ℕ → ℕ
  | 0 => if s == t then 1 else 0
  | k + 1 => ((g.succs s).map (fun u => walkCount g u t k)).sum

/-- Length of the shortest directed `s→t` path (`none` if unreachable);
`nodes` bounds the search. -/
def distOpt (g : DiGraph) (n : ℕ) (s t : String) : Option ℕ :=
  (List.range (n + 1)).find? (fun k => decide (0 < walkCount g s t k))

/-- Number of shortest `s→t` paths. -/
def sigmaSP (g : DiGraph) (n : ℕ) (s t : String) : ℕ :=
  match distOpt g n s t with
  | some d => walkCount g s t d
  | none => 0

/-- Number of shortest `s→t` paths passing through `v`. -/
def sigmaThrough (g : DiGraph) (n : ℕ) (s v t : String) : ℕ :=
  match distOpt g n s t, distOpt g n s v, distOpt g n v t with
  | some d, some d₁, some d₂ =>
    if d₁ + d₂ = d then walkCount g s v d₁ * walkCount g v t d₂ else 0
  | _, _, _ => 0

/-- `nx.betweenness_centrality` (directed, normalized) over node list
`ns` with the edges of `g` (the node list is explicit because a subgraph
keeps isolated members that an edge list alone would lose). -/
def betweenness_centrality (g : DiGraph) (ns : List String) :
    List (String × ℚ) :=
  let n := ns.length
  let pairs := ns.flatMap (fun s => ns.map (fun t => (s, t)))
  let raw := ns.map (fun v =>
    (v, pairs.foldl
      (fun (acc : ℚ) st =>
        if st.1 == v || st.2 == v || st.1 == st.2 then acc
        else
          let sg := sigmaSP g n st.1 st.2
          if sg = 0 then acc
          else acc + (sigmaThrough g n st.1 v st.2 : ℚ) / (sg : ℚ))
      0))
  if n ≤ 2 then raw
  else raw.map (fun p => (p.1, p.2 / (((n : ℚ) - 1) * ((n : ℚ) - 2))))

/-! ## `detect_mastermind` -/

def listMinD (l : List ℚ) (dflt : ℚ) : ℚ :=
  match l with
  | [] => dflt
  | x :: xs => xs.foldl min x

/-- The `norm` helper: min-max normalize the values; all `0.5` when
`max == min`; empty stays empty. -/
def normMap : List (String × ℚ) → List (String × ℚ)
  | [] => []
  | q :: qs =>
    if listMinD ((q :: qs).map Prod.snd) 0 < listMaxD ((q :: qs).map Prod.snd) 0 then
      (q :: qs).map (fun p =>
        (p.1, (p.2 - listMinD ((q :: qs).map Prod.snd) 0) /
          (listMaxD ((q :: qs).map Prod.snd) 0 - listMinD ((q :: qs).map Prod.snd) 0)))
    else (q :: qs).map (fun p => (p.1, 1/2))

/-- Number of cycle rings containing `a` (the `ring_count` statistic). -/
def ringCount (rings : List (String × List String)) (a : String) : ℕ :=
  (rings.filter (fun r => r.2.contains a)).length

structure MmEntry where
  account_id : String
  mastermind_score : ℚ
deriving DecidableEq, Repr

/-- The mastermind composite `c(n) = 0.10·bc + 0.50·od + 0.40·vol` over
the normalized maps, with the source's `.get(n, 0.5)` defaults. -/
def mmComposite (bc od vol : List (String × ℚ)) (n : String) : ℚ :=
  getD bc n (1/2) * (1/10) + getD od n (1/2) * (5/10) + getD vol n (1/2) * (4/10)

/-- Piecewise base score of `detect_mastermind` (lines 313–315). -/
def mmBase (c : ℚ) : ℚ :=
  if (9 : ℚ)/10 ≤ c then 95 + ((c - 9/10) / (1/10)) * 5
  else if (8 : ℚ)/10 ≤ c then 85 + ((c - 8/10) / (1/10)) * 10
  else 75 + ((c - 7/10) / (1/10)) * 10

/-- One step of the composite argmax (`if c > best_c: best_c, best = c, n`;
strict comparison, so the first maximum wins). -/
def mmStep (bc od vol : List (String × ℚ)) (b : Option String × ℚ)
    (n : String) : Option String × ℚ :=
  if b.2 < mmComposite bc od vol n then (some n, mmComposite bc od vol n) else b

/-- The argmax of the composite over the ring members with the source's
first-strict-maximum tie-break, members visited in their stored (sorted)
order. -/
def mmBest (bc od vol : List (String × ℚ)) (mbrs : List String) :
    Option String × ℚ :=
  mbrs.foldl (mmStep bc od vol) (none, -1)

/-- The normalized betweenness map of a ring's induced subgraph (the
explicit node list keeps members that have no internal edges). -/
def mmBc (g : DiGraph) (mbrs : List String) : List (String × ℚ) :=
  normMap (betweenness_centrality (g.induced mbrs)
    (g.nodes.filter (fun n => mbrs.contains n)))

/-- The normalized out-degree map over the ring members. -/
def mmOd (g : DiGraph) (mbrs : List String) : List (String × ℚ) :=
  normMap (mbrs.map (fun n => (n, ((g.induced mbrs).outDegree n : ℚ))))

/-- The normalized internal-outflow-volume map over the ring members. -/
def mmVol (g : DiGraph) (mbrs : List String) : List (String × ℚ) :=
  normMap (mbrs.map (fun n =>
    (n, ((g.edges.filter
           (fun e => e.src == n && mbrs.contains e.dst)).map
           Edge.amount).sum)))

/-- The composite argmax over one ring's members. -/
def mmBestOf (g : DiGraph) (mbrs : List String) : Option String × ℚ :=
  mmBest (mmBc g mbrs) (mmOd g mbrs) (mmVol g mbrs) mbrs

/-- The mastermind decision for one ring (the body of the
`detect_mastermind` loop, lines 288–318). -/
def mmEntryFor (g : DiGraph) (rings : List (String × List String))
    (mbrs : List String) : Option MmEntry :=
  if all_legit mbrs then none
  else if (g.nodes.filter (fun n => mbrs.contains n)).length ≤ 1 then none
  else
    match (mmBestOf g mbrs).1 with
    | none => none
    | some b =>
      -- `if not best` is Python truthiness: also rejects the empty id
      if b == "" || decide ((mmBestOf g mbrs).2 < 3/4) then none
      else some ⟨b, pyRound
        (min 100 (mmBase (mmBestOf g mbrs).2 + ((ringCount rings b : ℚ) - 1) * 15)) 1⟩

/-- `detect_mastermind`. -/
def detect_mastermind (g : DiGraph) (rings : List (String × List String)) :
    List (String × MmEntry) :=
  rings.foldl
    (fun acc p =>
      match mmEntryFor g rings p.2 with
      | none => acc
      | some e => acc ++ [(p.1, e)])
    []

/-! ## `compute_suspicion_score` -/

structure Pre where
  in_degrees : List (String × ℕ)
  out_degrees : List (String × ℕ)
  total_nodes : ℕ
  velocity_counts : List (String × ℕ)
deriving DecidableEq, Repr

structure Score where
  total : ℚ
  cycle_score : ℚ
  velocity_score : ℚ
  fan_score : ℚ
  shell_score : ℚ
deriving DecidableEq, Repr

def intLeP (a b : ℤ) : Prop := (decide (a ≤ b)) = true

instance : DecidableRel intLeP := fun a b => instDecidableEqBool _ _

/-- The `pre = None` fallback velocity of `compute_suspicion_score`
(lines 344–355): over the transactions where the account appears as sender
**or** receiver, the maximum **count of rows** (not distinct senders) in a
72-hour window of the sorted timestamps. -/
def fallbackVel (df : List Tx) (acct : String) : ℕ :=
  let sub := df.filter (fun t => t.sender == acct || t.receiver == acct)
  if sub.isEmpty then 0
  else
    let ts2 := (sub.map Tx.ts).insertionSort intLeP
    (List.range ts2.length).foldl
      (fun mx r => max mx (r + 1 - winLeft ts2 VELOCITY_WINDOW_SECONDS r)) 0

/-- The cycle component (lines 357–360): 40/35/30 by the shortest cycle
the account sits on. -/
def cycleScoreOf (cyc : CycleData) (acct : String) : ℚ :=
  if (getD cyc.member_cycles acct []).isEmpty then 0
  else if (match (getD cyc.member_cycles acct []).map List.length with
           | [] => 0
           | x :: xs => xs.foldl min x) ≤ 3 then 40
  else if (match (getD cyc.member_cycles acct []).map List.length with
           | [] => 0
           | x :: xs => xs.foldl min x) = 4 then 35
  else 30

/-- The velocity component (line 362). -/
def velScoreOf (vel : ℕ) : ℚ :=
  min 25 ((vel : ℚ) / (VELOCITY_TX_THRESHOLD : ℚ) * 25)

/-- The fan component with its smurfing-pattern overrides
(lines 363–367). -/
def fanScoreOf (in_d out_d N : ℕ) (pats : List String) : ℚ :=
  if pats.contains "fan_in" && pats.contains "fan_out" then 20
  else if pats.contains "fan_in" || pats.contains "fan_out" then
    max (min 20 (((in_d : ℚ) + (out_d : ℚ)) / (max (2 * N) 1 : ℕ) * 200)) 15
  else min 20 (((in_d : ℚ) + (out_d : ℚ)) / (max (2 * N) 1 : ℕ) * 200)

/-- The shell component (lines 369–370). -/
def shellScoreOf (d : ℕ) : ℚ :=
  if 4 ≤ d then 15 else if d = 3 then 10 else if 1 ≤ d then 5 else 0

/-- The velocity count `vel` used by the scorer for `acct`. -/
def velOf (acct : String) (df : List Tx) (pre : Option Pre) : ℕ :=
  match pre with
  | some p => getD p.velocity_counts acct 0
  | none => fallbackVel df acct

def inDegOf (acct : String) (g : DiGraph) (pre : Option Pre) : ℕ :=
  match pre with
  | some p => getD p.in_degrees acct 0
  | none => if g.hasNode acct then g.inDegree acct else 0

def outDegOf (acct : String) (g : DiGraph) (pre : Option Pre) : ℕ :=
  match pre with
  | some p => getD p.out_degrees acct 0
  | none => if g.hasNode acct then g.outDegree acct else 0

def totalNodesOf (g : DiGraph) (pre : Option Pre) : ℕ :=
  match pre with
  | some p => p.total_nodes
  | none => g.nodes.length

/-- `compute_suspicion_score`. -/
def compute_suspicion_score (acct : String) (g : DiGraph) (df : List Tx)
    (cyc : CycleData) (smurf : List (String × List String))
    (shells : List (String × ℕ)) (pre : Option Pre) : Score :=
  { total := min 100 (pyRound
      (cycleScoreOf cyc acct + velScoreOf (velOf acct df pre) +
       fanScoreOf (inDegOf acct g pre) (outDegOf acct g pre)
         (totalNodesOf g pre) (getD smurf acct []) +
       shellScoreOf (getD shells acct 0)) 2),
    cycle_score := pyRound (cycleScoreOf cyc acct) 2,
    velocity_score := pyRound (velScoreOf (velOf acct df pre)) 2,
    fan_score := pyRound (fanScoreOf (inDegOf acct g pre) (outDegOf acct g pre)
      (totalNodesOf g pre) (getD smurf acct [])) 2,
    shell_score := pyRound (shellScoreOf (getD shells acct 0)) 2 }

/-! ## `run` — data types

`analysis_id`, `timestamp` and `processing_time_seconds` are a fresh UUID,
the wall clock and a stopwatch; they are exactly the fields every claim
excludes, so the embedded result omits them. -/

structure Suspect where
  account_id : String
  suspicion_score : ℚ
  detected_patterns : List String
  ring_id : Option String
  is_mastermind : Bool
  mastermind_score : Option ℚ
  cycle_score : ℚ
  velocity_score : ℚ
  fan_score : ℚ
  shell_score : ℚ
deriving DecidableEq, Repr

structure Ring where
  ring_id : String
  member_accounts : List String
  pattern_type : String
  risk_score : ℚ
  mastermind_account : Option String
  transaction_count : ℕ
  total_amount : ℚ
deriving DecidableEq, Repr

structure Summary where
  total_accounts_analyzed : ℕ
  suspicious_accounts_flagged : ℕ
  fraud_rings_detected : ℕ
  mastermind_accounts_identified : ℕ
  false_positives_filtered : ℕ
deriving DecidableEq, Repr

structure AnalysisResult where
  suspicious_accounts : List Suspect
  fraud_rings : List Ring
  summary : Summary
deriving DecidableEq, Repr

/-! ## `run` — pipeline context -/

/-- The cleaning at the top of `run` (lines 389–393).  The timestamp
re-coercion is the identity on the already-typed embedding input, so only
the self-transfer drop remains. -/
def cleanDf (df0 : List Tx) : List Tx :=
  df0.filter (fun t => t.sender != t.receiver)

/-- The `vel_counts` pre-pass of `run` (lines 408–420): per receiver in
the suspect pool, the maximum distinct-sender count in a 72-hour window of
its incoming transactions. -/
def velCounts (df : List Tx) (allIds : List String) : List (String × ℕ) :=
  (sortedReceivers (df.filter (fun t => allIds.contains t.receiver))).map
    (fun a => (a, maxWinDistinct (df.filter (fun t => t.receiver == a))))

/-- Everything `run` computes before the per-account suspect loop. -/
structure Ctx where
  df : List Tx
  g : DiGraph
  wl : List String
  smurf : List (String × List String)
  cyc : CycleData
  shells : List (String × ℕ)
  mm : List (String × MmEntry)
  allIds : List String
  pre : Pre
deriving Repr

def ctxDf (df0 : List Tx) : List Tx := cleanDf df0
def ctxG (df0 : List Tx) : DiGraph := build_graph (ctxDf df0)
def ctxWl (df0 : List Tx) : List String := merchant_whitelist (ctxDf df0)
def ctxSmurf (df0 : List Tx) : List (String × List String) :=
  detect_smurfing (ctxDf df0)
def ctxCyc (df0 : List Tx) : CycleData := detect_cycles (ctxG df0) (ctxWl df0)
def ctxShells (df0 : List Tx) : List (String × ℕ) :=
  detect_shell_chains (ctxG df0) (ctxDf df0) (ctxWl df0) (ctxCyc df0).cycle_members
def ctxMm (df0 : List Tx) : List (String × MmEntry) :=
  detect_mastermind (ctxG df0) (ctxCyc df0).rings
def ctxAllIds (df0 : List Tx) : List String :=
  firstDedup ((ctxCyc df0).ring_map.map Prod.fst ++
    (ctxSmurf df0).map Prod.fst ++ (ctxShells df0).map Prod.fst)

def mkCtx (df0 : List Tx) : Ctx :=
  { df := ctxDf df0, g := ctxG df0, wl := ctxWl df0, smurf := ctxSmurf df0,
    cyc := ctxCyc df0, shells := ctxShells df0, mm := ctxMm df0,
    allIds := ctxAllIds df0,
    pre :=
      { in_degrees := (ctxG df0).nodes.map (fun n => (n, (ctxG df0).inDegree n)),
        out_degrees := (ctxG df0).nodes.map (fun n => (n, (ctxG df0).outDegree n)),
        total_nodes := (ctxG df0).nodes.length,
        velocity_counts := velCounts (ctxDf df0) (ctxAllIds df0) } }

/-- The canonical (sorted) listing of the pipeline's shell-pot set. -/
def potCanon (df0 : List Tx) : List String :=
  shellPot (ctxG df0) (ctxDf df0) (ctxWl df0) (ctxCyc df0).cycle_members

def ctxShellsFrom (df0 : List Tx) (potOrd : List String) : List (String × ℕ) :=
  detect_shell_chains_from (ctxG df0) potOrd

def ctxAllIdsFrom (df0 : List Tx) (potOrd : List String) : List String :=
  firstDedup ((ctxCyc df0).ring_map.map Prod.fst ++
    (ctxSmurf df0).map Prod.fst ++ (ctxShellsFrom df0 potOrd).map Prod.fst)

/-- The pipeline context with an explicit iteration order `potOrd` for the
shell-pot set (`mkCtx` is the canonical instance, see `mkCtx_canon`): the
order flows into `shells`, and through it into the suspect pool and the
order in which `run` labels the shell rings. -/
def mkCtxFrom (df0 : List Tx) (potOrd : List String) : Ctx :=
  { df := ctxDf df0, g := ctxG df0, wl := ctxWl df0, smurf := ctxSmurf df0,
    cyc := ctxCyc df0, shells := ctxShellsFrom df0 potOrd, mm := ctxMm df0,
    allIds := ctxAllIdsFrom df0 potOrd,
    pre :=
      { in_degrees := (ctxG df0).nodes.map (fun n => (n, (ctxG df0).inDegree n)),
        out_degrees := (ctxG df0).nodes.map (fun n => (n, (ctxG df0).outDegree n)),
        total_nodes := (ctxG df0).nodes.length,
        velocity_counts := velCounts (ctxDf df0) (ctxAllIdsFrom df0 potOrd) } }

/-! ## `run` — the suspect loop -/

/-- Append a pattern tag unless already present (`if p not in pats:
pats.append(p)`). -/
def dedupAppend (ps : List String) (t : String) : List String :=
  if ps.contains t then ps else ps ++ [t]

/-- The `detected_patterns` list of a suspect (lines 439–447; the source's
final `list(dict.fromkeys(pats))` is a no-op because the list is built
deduplicated and the two shell tags occur at most once). -/
def suspectPats (ctx : Ctx) (acct : String) : List String :=
  if hasKey ctx.shells acct then
    ((getD ctx.smurf acct []).foldl (fun ps x => dedupAppend ps x)
      ((getD ctx.cyc.member_cycles acct []).foldl
        (fun ps c => dedupAppend ps ("cycle_length_" ++ Nat.repr c.length)) [])) ++
    ["shell_chain", "low_transaction_intermediary"]
  else
    (getD ctx.smurf acct []).foldl (fun ps x => dedupAppend ps x)
      ((getD ctx.cyc.member_cycles acct []).foldl
        (fun ps c => dedupAppend ps ("cycle_length_" ++ Nat.repr c.length)) [])

/-- The scorer as invoked by `run` (with the precomputed statistics). -/
def scOf (ctx : Ctx) (acct : String) : Score :=
  compute_suspicion_score acct ctx.g ctx.df ctx.cyc ctx.smurf ctx.shells
    (some ctx.pre)

def isMmOf (ctx : Ctx) (acct : String) : Bool :=
  ctx.mm.any (fun q => q.2.account_id == acct)

/-- `mm_rid` is a dict comprehension, so a repeated mastermind account
keeps its **last** ring's score. -/
def mmScoreOf (ctx : Ctx) (acct : String) : Option ℚ :=
  if isMmOf ctx acct then
    (ctx.mm.reverse.find? (fun q => q.2.account_id == acct)).map
      (fun q => q.2.mastermind_score)
  else none

/-- One iteration of the suspect loop (lines 433–465): `none` when the
score is `≤ 0` (line 437). -/
def mkSuspect (ctx : Ctx) (acct : String) : Option Suspect :=
  if (scOf ctx acct).total ≤ 0 then none
  else some
    { account_id := acct,
      suspicion_score := (scOf ctx acct).total,
      detected_patterns := suspectPats ctx acct,
      ring_id := (ctx.cyc.ring_map.find? (fun p => p.1 == acct)).map Prod.snd,
      is_mastermind := isMmOf ctx acct,
      mastermind_score := mmScoreOf ctx acct,
      cycle_score := (scOf ctx acct).cycle_score,
      velocity_score := (scOf ctx acct).velocity_score,
      fan_score := (scOf ctx acct).fan_score,
      shell_score := (scOf ctx acct).shell_score }

/-! ## `run` — ring assembly -/

/-- Transactions with both endpoints in the member set (`rt`). -/
def txWithin (df : List Tx) (mbrs : List String) : List Tx :=
  df.filter (fun t => mbrs.contains t.sender && mbrs.contains t.receiver)

/-- A cycle-ring record (lines 469–483). -/
def cycleRingRecord (df : List Tx) (suspects : List Suspect)
    (mm : List (String × MmEntry)) (p : String × List String) : Ring :=
  let rt := txWithin df p.2
  let ms := (suspects.filter (fun s => p.2.contains s.account_id)).map
    Suspect.suspicion_score
  { ring_id := p.1,
    member_accounts := p.2,
    pattern_type := "cycle",
    risk_score := pyRound (listMaxD ms 50) 1,
    mastermind_account := (mm.find? (fun q => q.1 == p.1)).map
      (fun q => q.2.account_id),
    transaction_count := rt.length,
    total_amount := pyRound ((rt.map Tx.amount).sum) 2 }

/-- Assembly state: emitted rings, the mutable `ring_map`, the suspects
(whose `ring_id` the loops update in place), and the label counter. -/
structure AsmState where
  ringsL : List Ring
  rmap : List (String × String)
  suspects : List Suspect
  ctr : ℕ
deriving Repr

/-- Set `ring_id := rid` on the suspect record of account `m`. -/
def ringIdUpd (rid m : String) (s : Suspect) : Suspect :=
  if s.account_id == m then { s with ring_id := some rid } else s

/-- Attach one member of a fresh ring: if not yet in `ring_map`, map it to
`rid` and update its suspect record (lines 518–522 and 552–556). -/
def attachStep (rid : String) (st : AsmState) (m : String) : AsmState :=
  if hasKey st.rmap m then st
  else
    { st with
      rmap := st.rmap ++ [(m, rid)],
      suspects := st.suspects.map (ringIdUpd rid m) }

/-- Attach the members of a fresh ring. -/
def attachMembers (st : AsmState) (rid : String) (mbrs : List String) : AsmState :=
  mbrs.foldl (attachStep rid) st

/-- The smurfing-ring record for hub `hub` with label `rid`
(lines 504–517). -/
def smurfRing (ctx : Ctx) (hub rid : String) (mbrs : List String) : Ring :=
  let rt := txWithin ctx.df mbrs
  { ring_id := rid,
    member_accounts := mbrs,
    pattern_type := "smurfing",
    risk_score := pyRound (min (849/10) (55 + (((ctx.g.preds hub).length : ℚ) / 50) * 20)) 1,
    mastermind_account := none,
    transaction_count := rt.length,
    total_amount := pyRound ((rt.map Tx.amount).sum) 2 }

/-- Append a fresh ring, bump the counter and attach its members. -/
def emitRing (st : AsmState) (ring : Ring) (mbrs : List String) : AsmState :=
  attachMembers
    { st with ringsL := st.ringsL ++ [ring], ctr := st.ctr + 1 } ring.ring_id mbrs

/-- The member set `{hub} ∪ predecessors` of a smurfing ring, in sorted
order. -/
def smurfMbrs (ctx : Ctx) (hub : String) : List String :=
  sortStr (firstDedup (hub :: ctx.g.preds hub))

/-- One smurfing-ring iteration (lines 487–522). -/
def smurfStep (ctx : Ctx) (st : AsmState) (e : String × List String) : AsmState :=
  if hasKey st.rmap e.1 then st
  else if !e.2.contains "fan_in" then st
  else if ctx.wl.contains e.1 then st
  else if (ctx.g.preds e.1).length < MIN_FAN_COUNT then st
  else if all_legit (smurfMbrs ctx e.1) then st
  else if !e.2.contains "high_velocity" && !(smurfMbrs ctx e.1).any is_fraud then st
  else emitRing st (smurfRing ctx e.1 (mkRingId st.ctr) (smurfMbrs ctx e.1))
    (smurfMbrs ctx e.1)

/-- Undirected neighbours within the shell-key set (the stack walk of
lines 529–536 follows successors and predecessors). -/
def undirNbrs (g : DiGraph) (keys : List String) (n : String) : List String :=
  (g.succs n ++ g.preds n).filter (fun x => keys.contains x)

/-- Connected component of `start` among the shell keys (what the stack
walk collects into `chain`). -/
def shellComponent (g : DiGraph) (keys : List String) (start : String) :
    List String :=
  (fun cur => firstDedup (cur ++ cur.flatMap (undirNbrs g keys)))^[keys.length]
    [start]

/-- The shell-ring record for component `chain` with label `rid`
(lines 538–551). -/
def shellRing (ctx : Ctx) (chain : List String) (rid : String) : Ring :=
  let mbrs := sortStr chain
  let rt := txWithin ctx.df mbrs
  { ring_id := rid,
    member_accounts := mbrs,
    pattern_type := "shell",
    risk_score := pyRound (50 + ((chain.length : ℚ) / 10) * 15) 1,
    mastermind_account := none,
    transaction_count := rt.length,
    total_amount := pyRound ((rt.map Tx.amount).sum) 2 }

/-- The component the stack walk collects for `shNode`. -/
def shellChainOf (ctx : Ctx) (shNode : String) : List String :=
  shellComponent ctx.g (ctx.shells.map Prod.fst) shNode

/-- One shell-ring iteration (lines 527–556); the extra `seen` component
mirrors `seen_sh`. -/
def shellStep (ctx : Ctx) (st : AsmState × List String) (shNode : String) :
    AsmState × List String :=
  if st.2.contains shNode || hasKey st.1.rmap shNode then st
  else if (shellChainOf ctx shNode).length < 2 then
    (st.1, st.2 ++ shellChainOf ctx shNode)
  else
    (emitRing st.1 (shellRing ctx (shellChainOf ctx shNode) (mkRingId st.1.ctr))
      (sortStr (shellChainOf ctx shNode)),
     st.2 ++ shellChainOf ctx shNode)

/-! ## `run` — post-filter -/

/-- Post-filter state: surviving suspects and rings plus the accumulated
false-positive counter `fp`. -/
structure PF where
  suspects : List Suspect
  ringsL : List Ring
  fp : ℕ
deriving DecidableEq, Repr

def ringIdIn (rids : List String) (s : Suspect) : Bool :=
  match s.ring_id with
  | some r => rids.contains r
  | none => false

/-- The `drop` closure of `run` (lines 561–565). -/
def dropRings (rids : List String) (st : PF) : PF :=
  { suspects := st.suspects.filter (fun s => !ringIdIn rids s),
    ringsL := st.ringsL.filter (fun r => !rids.contains r.ring_id),
    fp := st.fp + (st.suspects.filter (ringIdIn rids)).length }

def sigPats : List String :=
  ["fan_out", "fan_in", "high_velocity", "shell_chain", "low_transaction_intermediary"]

/-- Rule 4 (lines 575–587): cycle rings without fraud-prefixed members
that are all-legit with low risk or no corroborating pattern, or
low-risk with no corroborating pattern. -/
def rule4Bad (st : PF) : List String :=
  ((st.ringsL.filter
    (fun r =>
      r.pattern_type == "cycle" &&
      !r.member_accounts.any is_fraud &&
      (let has_sig := st.suspects.any
        (fun s => s.ring_id == some r.ring_id &&
                  s.detected_patterns.any (fun p => sigPats.contains p))
       if all_legit r.member_accounts then
         decide (r.risk_score < 80) || !has_sig
       else
         decide (r.risk_score < 45) && !has_sig))).map Ring.ring_id)

def volPats : List String := ["fan_out", "fan_in", "high_velocity"]

/-- Rule 5 (lines 589–597): orphan volume-only low-score suspects. -/
def orphanCond (s : Suspect) : Bool :=
  s.ring_id == none && s.cycle_score == 0 && s.shell_score == 0 &&
  decide (s.suspicion_score < 45) &&
  s.detected_patterns.all (fun p => volPats.contains p)

def dropOrphans (st : PF) : PF :=
  let orph := (st.suspects.filter orphanCond).map Suspect.account_id
  { suspects := st.suspects.filter (fun s => !orph.contains s.account_id),
    ringsL := st.ringsL,
    fp := st.fp + orph.length }

def mmInWl (wl : List String) (r : Ring) : Bool :=
  match r.mastermind_account with
  | some m => wl.contains m
  | none => false

/-- Rule 6, the whitelist sweep (lines 599–604): whitelisted suspects are
dropped and counted as false positives; **rings whose mastermind is
whitelisted are dropped by the filter on line 602**, which makes the
mastermind-clearing loop of lines 603–604 dead code. -/
def whitelist_sweep (wl : List String) (st : PF) : PF :=
  let fp := st.fp + (st.suspects.filter (fun s => wl.contains s.account_id)).length
  let suspects := st.suspects.filter (fun s => !wl.contains s.account_id)
  let ringsL := st.ringsL.filter (fun r => !mmInWl wl r)
  let ringsL := ringsL.map
    (fun r => if mmInWl wl r then { r with mastermind_account := none } else r)
  ⟨suspects, ringsL, fp⟩

/-- Descending stable order on final suspects
(`sort(key=suspicion_score, reverse=True)`). -/
def scoreGeP (a b : Suspect) : Prop :=
  (decide (b.suspicion_score ≤ a.suspicion_score)) = true

instance : DecidableRel scoreGeP := fun a b => instDecidableEqBool _ _

/-! ## `run` -/

/-- The ring-assembly half of `run` (lines 433–556): build the suspect
records in iteration order `ids`, then emit cycle, smurfing and shell
rings, updating `ring_map` and the suspects' `ring_id`s. -/
def assemble (ctx : Ctx) (ids : List String) : AsmState :=
  let suspects₀ := ids.filterMap (mkSuspect ctx)
  let st₁ : AsmState :=
    ctx.smurf.foldl (smurfStep ctx)
      { ringsL := ctx.cyc.rings.map (cycleRingRecord ctx.df suspects₀ ctx.mm),
        rmap := ctx.cyc.ring_map, suspects := suspects₀,
        ctr := ctx.cyc.rings.length + 1 }
  ((ctx.shells.map Prod.fst).foldl (shellStep ctx) (st₁, [])).1

/-- Drop rule 1: rings with more than 100 members. -/
def drop1 (pf : PF) : PF :=
  dropRings
    ((pf.ringsL.filter (fun r => decide (100 < r.member_accounts.length))).map
      Ring.ring_id) pf

/-- Drop rule 2: rings whose `total_amount` is below `MIN_CYCLE_AMOUNT`. -/
def drop2 (pf : PF) : PF :=
  dropRings
    ((pf.ringsL.filter (fun r => decide (r.total_amount < MIN_CYCLE_AMOUNT))).map
      Ring.ring_id) pf

/-- Drop rule 3: oversized high-volume smurfing rings. -/
def drop3 (pf : PF) : PF :=
  dropRings
    ((pf.ringsL.filter
      (fun r => r.pattern_type == "smurfing" &&
                decide (20 < r.member_accounts.length) &&
                decide ((1000000 : ℚ) < r.total_amount))).map Ring.ring_id) pf

/-- Drop rule 4: suppressed cycle rings (see `rule4Bad`). -/
def drop4 (pf : PF) : PF := dropRings (rule4Bad pf) pf

/-- The post-filter cascade of `run` (lines 559–604). -/
def postFilter (wl : List String) (st : AsmState) : PF :=
  whitelist_sweep wl
    (dropOrphans (drop4 (drop3 (drop2 (drop1 ⟨st.suspects, st.ringsL, 0⟩)))))

/-- The whole pipeline after the context: `ids` is the iteration order of
the Python set `all_ids` in the suspect loop (hash-seed dependent there;
always a permutation of `ctx.allIds`). -/
def runFrom (ctx : Ctx) (ids : List String) : AnalysisResult :=
  let pf := postFilter ctx.wl (assemble ctx ids)
  { suspicious_accounts := pf.suspects.insertionSort scoreGeP,
    fraud_rings := pf.ringsL,
    summary :=
      { total_accounts_analyzed := ctx.g.nodes.length,
        suspicious_accounts_flagged := pf.suspects.length,
        fraud_rings_detected := pf.ringsL.length,
        mastermind_accounts_identified :=
          (pf.suspects.filter Suspect.is_mastermind).length,
        false_positives_filtered := pf.fp } }

/-- `run` with the canonical (first-insertion) iteration order of the
suspect-id set. -/
def run (df0 : List Tx) : AnalysisResult :=
  let ctx := mkCtx df0
  runFrom ctx ctx.allIds

/-- Example batch: a fan-in hub receiving one payment from each of ten
distinct senders inside a single 72-hour window. -/
def hubBatch : List Tx :=
  (List.range 10).map (fun i =>
    ⟨"ACC_S" ++ Nat.repr i, "ACC_H", 500, (i : ℤ) * 3600⟩)

/-! # Verification of the claims -/

/- Batteries marks the `Rat` field operations `@[irreducible]`; re-open
them so that concrete pipeline runs evaluate inside `decide`. -/
unseal Rat.add Rat.mul Rat.inv Rat.sub

/-! ## C4 — the cycle amount gate -/

/-- **C4.** For every cycle `c` with `total` the sum of the aggregated edge
amounts along `c`, `avg = total / length c` and `T = MIN_CYCLE_AMOUNT`:
if every member is `LEGIT_`-prefixed the cycle passes the amount gate iff
`total ≥ 3·T` and `avg ≥ 25000`; otherwise, if any member carries a fraud
prefix, iff `total ≥ T/2`; otherwise iff `total ≥ T`. -/
theorem C4_cycle_amount_gate (g : DiGraph) (c : List String) :
    (all_legit c = true →
      (cycle_keep g c = true ↔
        3 * MIN_CYCLE_AMOUNT ≤ cycle_total g c ∧
        (25000 : ℚ) ≤ cycle_total g c / (c.length : ℚ))) ∧
    (all_legit c = false → c.any is_fraud = true →
      (cycle_keep g c = true ↔ MIN_CYCLE_AMOUNT / 2 ≤ cycle_total g c)) ∧
    (all_legit c = false → c.any is_fraud = false →
      (cycle_keep g c = true ↔ MIN_CYCLE_AMOUNT ≤ cycle_total g c)) := by
  have hhalf : MIN_CYCLE_AMOUNT * (1/2) = MIN_CYCLE_AMOUNT / 2 := by
    norm_num [MIN_CYCLE_AMOUNT]
  refine ⟨fun h => ?_, fun h₁ h₂ => ?_, fun h₁ h₂ => ?_⟩
  · simp [cycle_keep, h, and_comm]
  · simp only [cycle_keep, h₁, h₂, Bool.false_eq_true, if_false, if_true,
      decide_eq_true_eq, hhalf]
  · simp [cycle_keep, h₁, h₂]

/-- Witness for C4: the all-fraud triangle with edge amounts 3000 passes
the gate via the fraud branch (`9000 ≥ 2500`). -/
theorem C4_cycle_amount_gate_witness :
    cycle_keep
      (build_graph [⟨"CYC3_A", "CYC3_B", 3000, 0⟩, ⟨"CYC3_B", "CYC3_C", 3000, 10⟩,
                    ⟨"CYC3_C", "CYC3_A", 3000, 20⟩])
      ["CYC3_A", "CYC3_B", "CYC3_C"] = true :=
  ((C4_cycle_amount_gate
      (build_graph [⟨"CYC3_A", "CYC3_B", 3000, 0⟩, ⟨"CYC3_B", "CYC3_C", 3000, 10⟩,
                    ⟨"CYC3_C", "CYC3_A", 3000, 20⟩])
      ["CYC3_A", "CYC3_B", "CYC3_C"]).2.1 (by decide) (by decide)).mpr (by decide)

/-! ## C1 — the whitelist sweep (code bug)

The spec (§4.8 rule 6) says a ring whose mastermind is whitelisted is
*retained* with the mastermind field cleared; the filter on line 602 of
`detector.py` *drops* such a ring, leaving the clearing loop of lines
603–604 dead.  The evaluation below exhibits this on a one-ring state:
the whitelisted suspect is dropped and counted (as the claim states), but
the ring vanishes instead of surviving with `mastermind_account = None`. -/

/-- **C1** (code bug witness by evaluation): at the sweep, a whitelisted
suspect is dropped and counted as a false positive, but a ring whose
`mastermind_account` is whitelisted is **dropped**, not retained with the
field cleared. -/
theorem C1_whitelist_sweep_drops_whitelisted_mastermind_ring :
    whitelist_sweep ["MERCH_1"]
      ⟨[⟨"MERCH_1", 50, ["fan_in"], some "RING_001", false, none, 0, 0, 20, 0⟩],
       [⟨"RING_001", ["ACC_A", "MERCH_1"], "cycle", 60, some "MERCH_1", 2, 9000⟩],
       0⟩ =
    ⟨[], [], 1⟩ := by decide

/-! ## C6 — `parse_csv` and self-transfers (corrected) -/

/-- **C6** (counterexample): `parse_csv` does **not** drop self-transfer
rows — a row with `sender_id == receiver_id` and valid amount and
timestamp survives parsing. -/
theorem C6_parse_csv_keeps_self_transfers :
    (parse_csv [⟨"ACC_1", "ACC_1", some 500, some 0⟩]).any
      (fun t => t.sender == t.receiver) = true := by decide

/-- **C6** (amended): `parse_csv` drops exactly the rows whose amount or
timestamp coercion failed — every coercion-valid row survives (self-
transfer or not), every output row comes from an input row, and the
self-transfer drop instead happens in the cleaning step at the top of
`run`. -/
theorem C6_parse_csv_amended :
    (∀ (rows : List RawRow) (r : RawRow) (a : ℚ) (t : ℤ),
       r ∈ rows → r.amount = some a → r.ts = some t →
       (⟨r.sender, r.receiver, a, t⟩ : Tx) ∈ parse_csv rows) ∧
    (∀ (rows : List RawRow) (tx : Tx), tx ∈ parse_csv rows →
       ∃ r ∈ rows, r.sender = tx.sender ∧ r.receiver = tx.receiver ∧
         r.amount = some tx.amount ∧ r.ts = some tx.ts) ∧
    (∀ (df0 : List Tx) (t : Tx), t ∈ cleanDf df0 → t.sender ≠ t.receiver) := by
  refine ⟨fun rows r a t hr ha ht => ?_, fun rows tx htx => ?_, fun df0 t ht => ?_⟩
  · refine List.mem_filterMap.mpr ⟨r, hr, ?_⟩
    rw [ha, ht]
  · obtain ⟨r, hr, hmk⟩ := List.mem_filterMap.mp htx
    refine ⟨r, hr, ?_⟩
    cases ha : r.amount with
    | none => rw [ha] at hmk; cases hmk
    | some a =>
      cases hts : r.ts with
      | none => rw [ha, hts] at hmk; cases hmk
      | some t =>
        rw [ha, hts] at hmk
        cases hmk
        exact ⟨rfl, rfl, rfl, rfl⟩
  · have := List.mem_filter.mp ht
    simpa using this.2

/-- Witness for C6 amended: a concrete self-transfer row survives
`parse_csv`, and a concrete `run`-cleaned table has no self-transfer. -/
theorem C6_parse_csv_amended_witness :
    (⟨"ACC_1", "ACC_1", (500 : ℚ), (0 : ℤ)⟩ : Tx) ∈
      parse_csv [⟨"ACC_1", "ACC_1", some 500, some 0⟩] :=
  C6_parse_csv_amended.1 [⟨"ACC_1", "ACC_1", some 500, some 0⟩]
    ⟨"ACC_1", "ACC_1", some 500, some 0⟩ 500 0 (by decide) rfl rfl

/-! ## C8 — empty batch -/

/-- **C8.** When the input table is empty or every row is dropped by the
cleaning at the top of `run` (in the typed embedding the only cleaning
drop is the self-transfer filter), `run` returns the well-formed empty
result: no suspects, no rings, and an all-zero summary. -/
theorem C8_empty_batch (df0 : List Tx) (h : ∀ t ∈ df0, t.sender = t.receiver) :
    run df0 =
      { suspicious_accounts := [], fraud_rings := [],
        summary := ⟨0, 0, 0, 0, 0⟩ } := by
  have hc : cleanDf df0 = [] := by
    refine List.filter_eq_nil_iff.mpr fun t ht => ?_
    simp [h t ht]
  have hd : ctxDf df0 = ctxDf [] := by
    show cleanDf df0 = cleanDf []
    rw [hc]
    rfl
  have hctx : mkCtx df0 = mkCtx [] := by
    unfold mkCtx ctxAllIds ctxMm ctxShells ctxCyc ctxSmurf ctxWl ctxG
    rw [hd]
  unfold run
  rw [hctx]
  decide

/-- Witness for C8: a table holding only a self-transfer. -/
theorem C8_empty_batch_witness :
    run [⟨"ACC_1", "ACC_1", 500, 0⟩] =
      { suspicious_accounts := [], fraud_rings := [],
        summary := ⟨0, 0, 0, 0, 0⟩ } :=
  C8_empty_batch [⟨"ACC_1", "ACC_1", 500, 0⟩] (by decide)

/-! ## Rounding lemmas -/

theorem rhe_intCast (z : ℤ) : rhe (z : ℚ) = z := by
  unfold rhe
  rw [Int.floor_intCast]
  norm_num

theorem rhe_sub_le (q : ℚ) : |((rhe q : ℤ) : ℚ) - q| ≤ 1/2 := by
  have h0 : (0 : ℚ) ≤ q - ⌊q⌋ := sub_nonneg.mpr (Int.floor_le q)
  have h1 : q - ⌊q⌋ < 1 := by
    have := Int.lt_floor_add_one q
    linarith
  unfold rhe
  split_ifs with hr hr2 he
  · rw [abs_sub_comm, abs_of_nonneg h0]
    linarith
  · push_cast
    rw [abs_of_nonneg (by linarith)]
    linarith
  · have hq : q - ⌊q⌋ = 1/2 := le_antisymm (not_lt.mp hr2) (not_lt.mp hr)
    rw [abs_sub_comm, abs_of_nonneg h0]
    linarith
  · have hq : q - ⌊q⌋ = 1/2 := le_antisymm (not_lt.mp hr2) (not_lt.mp hr)
    push_cast
    rw [abs_of_nonneg (by linarith)]
    linarith

theorem rhe_nonneg {q : ℚ} (h : 0 ≤ q) : 0 ≤ rhe q := by
  have hf : (0 : ℤ) ≤ ⌊q⌋ := Int.floor_nonneg.mpr h
  unfold rhe
  split_ifs <;> omega

theorem rhe_le_intCast {q : ℚ} {z : ℤ} (h : q ≤ (z : ℚ)) : rhe q ≤ z := by
  have hf : ⌊q⌋ ≤ z := by
    have := Int.floor_le_floor h
    rwa [Int.floor_intCast] at this
  unfold rhe
  split_ifs with hr hr2 he
  · exact hf
  · have hlt : (⌊q⌋ : ℚ) < z := by
      have : (⌊q⌋ : ℚ) ≤ q - 1/2 := by linarith
      linarith
    have : ⌊q⌋ < z := by exact_mod_cast hlt
    omega
  · exact hf
  · have hq : q - ⌊q⌋ = 1/2 := le_antisymm (not_lt.mp hr2) (not_lt.mp hr)
    have hlt : (⌊q⌋ : ℚ) < z := by linarith
    have : ⌊q⌋ < z := by exact_mod_cast hlt
    omega

theorem pyRound_sub_le (q : ℚ) (k : ℕ) : |pyRound q k - q| ≤ 1 / (2 * 10 ^ k) := by
  have hpow : (0 : ℚ) < 10 ^ k := by positivity
  have h := rhe_sub_le (q * 10 ^ k)
  unfold pyRound
  have heq : ((rhe (q * 10 ^ k) : ℤ) : ℚ) / 10 ^ k - q
      = (((rhe (q * 10 ^ k) : ℤ) : ℚ) - q * 10 ^ k) / 10 ^ k := by
    field_simp
    ring
  rw [heq, abs_div, abs_of_pos hpow, div_le_div_iff hpow (by positivity : (0:ℚ) < 2 * 10 ^ k)]
  calc |((rhe (q * 10 ^ k) : ℤ) : ℚ) - q * 10 ^ k| * (2 * 10 ^ k)
      ≤ (1/2) * (2 * 10 ^ k) := by
        apply mul_le_mul_of_nonneg_right h
        positivity
    _ = 1 * 10 ^ k := by ring

theorem pyRound_exact {q : ℚ} {k : ℕ} {z : ℤ} (hz : q * 10 ^ k = (z : ℚ)) :
    pyRound q k = q := by
  unfold pyRound
  rw [hz, rhe_intCast, ← hz]
  field_simp

theorem pyRound_le_of_le {q c : ℚ} {k : ℕ} {z : ℤ} (hz : c * 10 ^ k = (z : ℚ))
    (h : q ≤ c) : pyRound q k ≤ c := by
  have hpow : (0 : ℚ) < 10 ^ k := by positivity
  have hle : rhe (q * 10 ^ k) ≤ z :=
    rhe_le_intCast (by rw [← hz]; exact mul_le_mul_of_nonneg_right h (le_of_lt hpow))
  unfold pyRound
  rw [div_le_iff hpow]
  calc ((rhe (q * 10 ^ k) : ℤ) : ℚ) ≤ (z : ℚ) := by exact_mod_cast hle
    _ = c * 10 ^ k := hz.symm

theorem pyRound_nonneg {q : ℚ} {k : ℕ} (h : 0 ≤ q) : 0 ≤ pyRound q k := by
  have hpow : (0 : ℚ) < 10 ^ k := by positivity
  have := @rhe_nonneg (q * 10 ^ k) (by positivity)
  unfold pyRound
  positivity

theorem min_sub_min_abs_le (a b c : ℚ) : |min c a - min c b| ≤ |a - b| := by
  have hca := min_le_left c a
  have hcb := min_le_left c b
  have haa := min_le_right c a
  have hbb := min_le_right c b
  rcases le_total a b with hab | hab
  · have h1 : min c a ≤ min c b := min_le_min le_rfl hab
    rw [abs_of_nonpos (by linarith), abs_of_nonpos (by linarith)]
    rcases le_total c a with h2 | h2
    · rw [min_eq_left h2, min_eq_left (le_trans h2 hab)]
      linarith
    · rw [min_eq_right h2]
      linarith
  · have h1 : min c b ≤ min c a := min_le_min le_rfl hab
    rw [abs_of_nonneg (by linarith), abs_of_nonneg (by linarith)]
    rcases le_total c b with h2 | h2
    · rw [min_eq_left h2, min_eq_left (le_trans h2 hab)]
      linarith
    · rw [min_eq_right h2]
      linarith

/-! ## Component bounds of the suspicion scorer -/

theorem cycleScoreOf_cases (cyc : CycleData) (acct : String) :
    cycleScoreOf cyc acct = 0 ∨ cycleScoreOf cyc acct = 30 ∨
    cycleScoreOf cyc acct = 35 ∨ cycleScoreOf cyc acct = 40 := by
  unfold cycleScoreOf
  split_ifs <;> simp

theorem shellScoreOf_cases (d : ℕ) :
    shellScoreOf d = 0 ∨ shellScoreOf d = 5 ∨ shellScoreOf d = 10 ∨
    shellScoreOf d = 15 := by
  unfold shellScoreOf
  split_ifs <;> simp

theorem velScoreOf_bounds (vel : ℕ) :
    0 ≤ velScoreOf vel ∧ velScoreOf vel ≤ 25 ∧
    ∃ z : ℤ, velScoreOf vel * 100 = (z : ℚ) := by
  unfold velScoreOf VELOCITY_TX_THRESHOLD
  refine ⟨le_min (by norm_num) (by positivity), min_le_left _ _, ?_⟩
  rcases min_cases (25 : ℚ) ((vel : ℚ) / ((10 : ℕ) : ℚ) * 25) with ⟨he, _⟩ | ⟨he, _⟩
  · exact ⟨2500, by rw [he]; norm_num⟩
  · refine ⟨vel * 250, ?_⟩
    rw [he]
    push_cast
    ring

theorem fanScoreOf_bounds (in_d out_d N : ℕ) (pats : List String) :
    0 ≤ fanScoreOf in_d out_d N pats ∧ fanScoreOf in_d out_d N pats ≤ 20 := by
  have hx : (0 : ℚ) ≤ ((in_d : ℚ) + (out_d : ℚ)) / (max (2 * N) 1 : ℕ) * 200 := by
    positivity
  unfold fanScoreOf
  split_ifs
  · norm_num
  · exact ⟨le_trans (by norm_num) (le_max_right _ _),
      max_le (min_le_left _ _) (by norm_num)⟩
  · exact ⟨le_min (by norm_num) hx, min_le_left _ _⟩

/-- All four components in one bundle: bounds, and exactness of rounding
for the three components that are always multiples of `1/100`. -/
theorem compute_suspicion_score_spec (acct : String) (g : DiGraph) (df : List Tx)
    (cyc : CycleData) (smurf : List (String × List String))
    (shells : List (String × ℕ)) (pre : Option Pre) :
    0 ≤ (compute_suspicion_score acct g df cyc smurf shells pre).total ∧
    (compute_suspicion_score acct g df cyc smurf shells pre).total ≤ 100 ∧
    0 ≤ (compute_suspicion_score acct g df cyc smurf shells pre).cycle_score ∧
    (compute_suspicion_score acct g df cyc smurf shells pre).cycle_score ≤ 40 ∧
    0 ≤ (compute_suspicion_score acct g df cyc smurf shells pre).velocity_score ∧
    (compute_suspicion_score acct g df cyc smurf shells pre).velocity_score ≤ 25 ∧
    0 ≤ (compute_suspicion_score acct g df cyc smurf shells pre).fan_score ∧
    (compute_suspicion_score acct g df cyc smurf shells pre).fan_score ≤ 20 ∧
    0 ≤ (compute_suspicion_score acct g df cyc smurf shells pre).shell_score ∧
    (compute_suspicion_score acct g df cyc smurf shells pre).shell_score ≤ 15 ∧
    |(compute_suspicion_score acct g df cyc smurf shells pre).total -
      min 100
        ((compute_suspicion_score acct g df cyc smurf shells pre).cycle_score +
         (compute_suspicion_score acct g df cyc smurf shells pre).velocity_score +
         (compute_suspicion_score acct g df cyc smurf shells pre).fan_score +
         (compute_suspicion_score acct g df cyc smurf shells pre).shell_score)| ≤ 1/100 := by
  have hc100 : ∃ z : ℤ, cycleScoreOf cyc acct * 100 = (z : ℚ) := by
    rcases cycleScoreOf_cases cyc acct with h | h | h | h <;>
      [exact ⟨0, by rw [h]; norm_num⟩; exact ⟨3000, by rw [h]; norm_num⟩;
       exact ⟨3500, by rw [h]; norm_num⟩; exact ⟨4000, by rw [h]; norm_num⟩]
  have hs100 : ∃ z : ℤ, shellScoreOf (getD shells acct 0) * 100 = (z : ℚ) := by
    rcases shellScoreOf_cases (getD shells acct 0) with h | h | h | h <;>
      [exact ⟨0, by rw [h]; norm_num⟩; exact ⟨500, by rw [h]; norm_num⟩;
       exact ⟨1000, by rw [h]; norm_num⟩; exact ⟨1500, by rw [h]; norm_num⟩]
  obtain ⟨zc, hzc⟩ := hc100
  obtain ⟨zs, hzs⟩ := hs100
  obtain ⟨hv0, hv25, zv, hzv⟩ := velScoreOf_bounds (velOf acct df pre)
  obtain ⟨hf0, hf20⟩ := fanScoreOf_bounds (inDegOf acct g pre) (outDegOf acct g pre)
    (totalNodesOf g pre) (getD smurf acct [])
  have hc0 : 0 ≤ cycleScoreOf cyc acct := by
    rcases cycleScoreOf_cases cyc acct with h | h | h | h <;> rw [h] <;> norm_num
  have hc40 : cycleScoreOf cyc acct ≤ 40 := by
    rcases cycleScoreOf_cases cyc acct with h | h | h | h <;> rw [h] <;> norm_num
  have hs0 : 0 ≤ shellScoreOf (getD shells acct 0) := by
    rcases shellScoreOf_cases (getD shells acct 0) with h | h | h | h <;> rw [h] <;> norm_num
  have hs15 : shellScoreOf (getD shells acct 0) ≤ 15 := by
    rcases shellScoreOf_cases (getD shells acct 0) with h | h | h | h <;> rw [h] <;> norm_num
  have hec : pyRound (cycleScoreOf cyc acct) 2 = cycleScoreOf cyc acct :=
    @pyRound_exact _ 2 zc (by rw [← hzc]; norm_num)
  have hev : pyRound (velScoreOf (velOf acct df pre)) 2 = velScoreOf (velOf acct df pre) :=
    @pyRound_exact _ 2 zv (by rw [← hzv]; norm_num)
  have hes : pyRound (shellScoreOf (getD shells acct 0)) 2 = shellScoreOf (getD shells acct 0) :=
    @pyRound_exact _ 2 zs (by rw [← hzs]; norm_num)
  have hT0 : 0 ≤ cycleScoreOf cyc acct + velScoreOf (velOf acct df pre) +
      fanScoreOf (inDegOf acct g pre) (outDegOf acct g pre) (totalNodesOf g pre)
        (getD smurf acct []) + shellScoreOf (getD shells acct 0) := by linarith
  have hfr := pyRound_sub_le (fanScoreOf (inDegOf acct g pre) (outDegOf acct g pre)
    (totalNodesOf g pre) (getD smurf acct [])) 2
  have hTr := pyRound_sub_le (cycleScoreOf cyc acct + velScoreOf (velOf acct df pre) +
    fanScoreOf (inDegOf acct g pre) (outDegOf acct g pre) (totalNodesOf g pre)
      (getD smurf acct []) + shellScoreOf (getD shells acct 0)) 2
  unfold compute_suspicion_score
  refine ⟨?_, ?_, ?_, ?_, ?_, ?_, ?_, ?_, ?_, ?_, ?_⟩
  · exact le_min (by norm_num) (pyRound_nonneg hT0)
  · exact min_le_left _ _
  · rw [hec]; exact hc0
  · rw [hec]; exact hc40
  · rw [hev]; exact hv0
  · rw [hev]; exact hv25
  · exact pyRound_nonneg hf0
  · exact @pyRound_le_of_le _ _ _ 2000 (by norm_num) hf20
  · rw [hes]; exact hs0
  · rw [hes]; exact hs15
  · rw [hec, hev, hes]
    refine le_trans (min_sub_min_abs_le _ _ 100) ?_
    rw [abs_le] at hfr hTr ⊢
    norm_num at hfr hTr ⊢
    constructor <;> linarith

/-! ## C2 — ring labels (corrected)

The labels are assigned densely (`RING_001`, `RING_002`, …, cycle rings
first, then smurfing, then shell rings), but the post-filter cascade drops
whole rings, so the labels surviving in the final `AnalysisResult` need not
start at `RING_001` and need not be dense.  They do remain strictly
increasing (hence unique): the invariant below carries the numeric indices
through assembly and post-filter. -/

/-- The surviving labels are `mkRingId` images of a strictly increasing
index list, all indices in `[1, b)`. -/
def ringIdsSpec (l : List Ring) (b : ℕ) : Prop :=
  ∃ ks : List ℕ, l.map Ring.ring_id = ks.map mkRingId ∧
    ks.Pairwise (· < ·) ∧ ∀ k ∈ ks, 1 ≤ k ∧ k < b

theorem foldl_pres {α σ : Type} (P : σ → Prop) (f : σ → α → σ)
    (h : ∀ s a, P s → P (f s a)) :
    ∀ (l : List α) (s : σ), P s → P (l.foldl f s) := by
  intro l
  induction l with
  | nil => exact fun s hs => hs
  | cons a as ih => exact fun s hs => ih (f s a) (h s a hs)

theorem attachStep_ringsL (rid : String) (st : AsmState) (m : String) :
    (attachStep rid st m).ringsL = st.ringsL ∧
    (attachStep rid st m).ctr = st.ctr := by
  unfold attachStep
  split <;> exact ⟨rfl, rfl⟩

theorem attachMembers_ringsL (st : AsmState) (rid : String) (mbrs : List String) :
    (attachMembers st rid mbrs).ringsL = st.ringsL ∧
    (attachMembers st rid mbrs).ctr = st.ctr := by
  induction mbrs generalizing st with
  | nil => exact ⟨rfl, rfl⟩
  | cons m ms ih =>
    rcases ih (attachStep rid st m) with ⟨h1, h2⟩
    rcases attachStep_ringsL rid st m with ⟨h3, h4⟩
    exact ⟨h1.trans h3, h2.trans h4⟩

theorem ringIdsSpec_append (l : List Ring) (b : ℕ) (r : Ring)
    (h : ringIdsSpec l b) (hr : r.ring_id = mkRingId b) (hb : 1 ≤ b) :
    ringIdsSpec (l ++ [r]) (b + 1) := by
  obtain ⟨ks, h1, h2, h3⟩ := h
  refine ⟨ks ++ [b], ?_, ?_, ?_⟩
  · simp [h1, hr]
  · refine List.pairwise_append.mpr ⟨h2, List.pairwise_singleton _ _, ?_⟩
    intro a ha b' hb'
    rw [List.mem_singleton] at hb'
    exact hb' ▸ (h3 a ha).2
  · intro k hk
    rcases List.mem_append.mp hk with hk | hk
    · exact ⟨(h3 k hk).1, Nat.lt_succ_of_lt (h3 k hk).2⟩
    · rw [List.mem_singleton] at hk
      subst hk
      exact ⟨hb, Nat.lt_succ_self _⟩

theorem ringIdsSpec_mono (l : List Ring) (b b' : ℕ) (h : ringIdsSpec l b)
    (hb : b ≤ b') : ringIdsSpec l b' := by
  obtain ⟨ks, h1, h2, h3⟩ := h
  exact ⟨ks, h1, h2, fun k hk => ⟨(h3 k hk).1, lt_of_lt_of_le (h3 k hk).2 hb⟩⟩

theorem ringIdsSpec_sublist {l l' : List Ring} {b : ℕ} (hsub : l'.Sublist l)
    (h : ringIdsSpec l b) : ringIdsSpec l' b := by
  obtain ⟨ks, h1, h2, h3⟩ := h
  have : (l'.map Ring.ring_id).Sublist (ks.map mkRingId) := h1 ▸ hsub.map _
  obtain ⟨ks', hks', hmap⟩ := List.sublist_map_iff.mp this
  exact ⟨ks', hmap, h2.sublist hks', fun k hk => h3 k (hks'.mem hk)⟩

theorem emitRing_spec (st : AsmState) (ring : Ring) (mbrs : List String)
    (h : ringIdsSpec st.ringsL st.ctr ∧ 1 ≤ st.ctr)
    (hr : ring.ring_id = mkRingId st.ctr) :
    ringIdsSpec (emitRing st ring mbrs).ringsL (emitRing st ring mbrs).ctr ∧
    1 ≤ (emitRing st ring mbrs).ctr := by
  unfold emitRing
  rw [(attachMembers_ringsL _ _ _).1, (attachMembers_ringsL _ _ _).2]
  exact ⟨ringIdsSpec_append _ _ _ h.1 hr h.2, Nat.le_succ_of_le h.2⟩

theorem smurfStep_spec (ctx : Ctx) (st : AsmState) (e : String × List String)
    (h : ringIdsSpec st.ringsL st.ctr ∧ 1 ≤ st.ctr) :
    ringIdsSpec (smurfStep ctx st e).ringsL (smurfStep ctx st e).ctr ∧
    1 ≤ (smurfStep ctx st e).ctr := by
  unfold smurfStep
  split
  · exact h
  split
  · exact h
  split
  · exact h
  split
  · exact h
  split
  · exact h
  split
  · exact h
  exact emitRing_spec _ _ _ h rfl

theorem shellStep_spec (ctx : Ctx) (st : AsmState × List String) (a : String)
    (h : ringIdsSpec st.1.ringsL st.1.ctr ∧ 1 ≤ st.1.ctr) :
    ringIdsSpec (shellStep ctx st a).1.ringsL (shellStep ctx st a).1.ctr ∧
    1 ≤ (shellStep ctx st a).1.ctr := by
  unfold shellStep
  split
  · exact h
  split
  · exact h
  exact emitRing_spec _ _ _ h rfl

theorem mkRings_ids (groups : List (List String)) :
    (mkRings groups).map Prod.fst =
      (List.range groups.length).map (fun i => mkRingId (i + 1)) := by
  unfold mkRings
  rw [List.map_map]
  have h : (Prod.fst ∘ fun p : ℕ × List String => (mkRingId (p.1 + 1), sortStr p.2)) =
      (fun i => mkRingId (i + 1)) ∘ Prod.fst := rfl
  rw [h, ← List.map_map, List.enum_map_fst]

theorem cycleRings_spec (df : List Tx) (suspects : List Suspect)
    (mm : List (String × MmEntry)) (groups : List (List String)) :
    ringIdsSpec ((mkRings groups).map (cycleRingRecord df suspects mm))
      ((mkRings groups).length + 1) := by
  refine ⟨(List.range groups.length).map (· + 1), ?_, ?_, ?_⟩
  · rw [List.map_map]
    have h : (Ring.ring_id ∘ cycleRingRecord df suspects mm) = Prod.fst := by
      funext p
      rfl
    rw [h, mkRings_ids, List.map_map]
    rfl
  · exact (List.pairwise_lt_range _).map _ (fun a b h => by omega)
  · intro k hk
    obtain ⟨i, hi, rfl⟩ := List.mem_map.mp hk
    have hlen : (mkRings groups).length = groups.length := by
      simp [mkRings]
    rw [List.mem_range] at hi
    omega

/-- The assembly of `run` leaves the ring list labelled by a strictly
increasing index sequence below the final counter. -/
theorem assemble_spec (ctx : Ctx) (ids : List String)
    (hc : ctx.cyc = detect_cycles ctx.g ctx.wl) :
    ringIdsSpec (assemble ctx ids).ringsL (assemble ctx ids).ctr ∧
    1 ≤ (assemble ctx ids).ctr := by
  unfold assemble
  set suspects₀ := ids.filterMap (mkSuspect ctx) with hs₀
  have hrings : ctx.cyc.rings = mkRings
      ((cycleGroups (rawCycles ctx.g ctx.wl)).insertionSort groupLeP) := by
    rw [hc]
    rfl
  have hinit : ringIdsSpec
      (ctx.cyc.rings.map (cycleRingRecord ctx.df suspects₀ ctx.mm))
      (ctx.cyc.rings.length + 1) ∧ 1 ≤ ctx.cyc.rings.length + 1 := by
    rw [hrings]
    exact ⟨cycleRings_spec _ _ _ _, Nat.le_add_left 1 _⟩
  have h₁ := foldl_pres
    (fun st : AsmState => ringIdsSpec st.ringsL st.ctr ∧ 1 ≤ st.ctr)
    (smurfStep ctx) (fun s a h => smurfStep_spec ctx s a h)
    ctx.smurf
    { ringsL := ctx.cyc.rings.map (cycleRingRecord ctx.df suspects₀ ctx.mm),
      rmap := ctx.cyc.ring_map, suspects := suspects₀,
      ctr := ctx.cyc.rings.length + 1 }
    hinit
  exact foldl_pres
    (fun st : AsmState × List String => ringIdsSpec st.1.ringsL st.1.ctr ∧ 1 ≤ st.1.ctr)
    (shellStep ctx) (fun s a h => shellStep_spec ctx s a h)
    (ctx.shells.map Prod.fst) (_, []) h₁

theorem dropRings_sublist (rids : List String) (pf : PF) :
    (dropRings rids pf).ringsL.Sublist pf.ringsL :=
  List.filter_sublist _

/-- `whitelist_sweep` maps `ring_id`s to the ids of a sublist of the input
rings (the filter drops some, the clearing map keeps ids). -/
theorem whitelist_sweep_ids (wl : List String) (pf : PF) :
    ∃ l' : List Ring, l'.Sublist pf.ringsL ∧
      (whitelist_sweep wl pf).ringsL.map Ring.ring_id = l'.map Ring.ring_id := by
  refine ⟨pf.ringsL.filter (fun r => !mmInWl wl r), List.filter_sublist _, ?_⟩
  show ((pf.ringsL.filter (fun r => !mmInWl wl r)).map
      (fun r => if mmInWl wl r then { r with mastermind_account := none } else r)).map
      Ring.ring_id = _
  rw [List.map_map]
  refine List.map_congr_left (fun r _ => ?_)
  by_cases h : mmInWl wl r = true
  · simp [h]
  · simp [h]

theorem dropRings_spec {pf : PF} {b : ℕ} (rids : List String)
    (h : ringIdsSpec pf.ringsL b) : ringIdsSpec (dropRings rids pf).ringsL b :=
  ringIdsSpec_sublist (dropRings_sublist rids pf) h

/-- Through the post-filter cascade, the surviving labels remain the
images of a strictly increasing positive index list. -/
theorem postFilter_spec (wl : List String) (st : AsmState)
    (h : ringIdsSpec st.ringsL st.ctr) :
    ∃ ks : List ℕ, (postFilter wl st).ringsL.map Ring.ring_id = ks.map mkRingId ∧
      ks.Pairwise (· < ·) ∧ ∀ k ∈ ks, 1 ≤ k := by
  have h₀ : ringIdsSpec (⟨st.suspects, st.ringsL, 0⟩ : PF).ringsL st.ctr := h
  have h₁ : ringIdsSpec (drop1 ⟨st.suspects, st.ringsL, 0⟩).ringsL st.ctr :=
    dropRings_spec _ h₀
  have h₂ : ringIdsSpec (drop2 (drop1 ⟨st.suspects, st.ringsL, 0⟩)).ringsL st.ctr :=
    dropRings_spec _ h₁
  have h₃ : ringIdsSpec
      (drop3 (drop2 (drop1 ⟨st.suspects, st.ringsL, 0⟩))).ringsL st.ctr :=
    dropRings_spec _ h₂
  have h₄ : ringIdsSpec
      (drop4 (drop3 (drop2 (drop1 ⟨st.suspects, st.ringsL, 0⟩)))).ringsL st.ctr :=
    dropRings_spec _ h₃
  have h₅ : ringIdsSpec
      (dropOrphans (drop4 (drop3 (drop2 (drop1 ⟨st.suspects, st.ringsL, 0⟩))))).ringsL
      st.ctr := h₄
  obtain ⟨l', hsub, hmap⟩ := whitelist_sweep_ids wl
    (dropOrphans (drop4 (drop3 (drop2 (drop1 ⟨st.suspects, st.ringsL, 0⟩)))))
  obtain ⟨ks, hks, hp, hb⟩ := ringIdsSpec_sublist hsub h₅
  exact ⟨ks, by rw [postFilter, hmap, hks], hp, fun k hk => (hb k hk).1⟩

/-- **C2** (counterexample): two disjoint fraud triangles, the first with
cycle total 3000 (it passes the halved gate but fails post-filter rule 2),
the second with total 9000.  The final output keeps only `RING_002`: the
surviving labels neither start at `RING_001` nor form a dense sequence. -/
theorem C2_ring_labels_counterexample :
    (run [⟨"CYC3_A1", "CYC3_A2", 1000, 0⟩, ⟨"CYC3_A2", "CYC3_A3", 1000, 10⟩,
          ⟨"CYC3_A3", "CYC3_A1", 1000, 20⟩,
          ⟨"CYC3_B1", "CYC3_B2", 3000, 0⟩, ⟨"CYC3_B2", "CYC3_B3", 3000, 10⟩,
          ⟨"CYC3_B3", "CYC3_B1", 3000, 20⟩]).fraud_rings.map Ring.ring_id =
      ["RING_002"] := by decide

/-- **C2** (amended): the final `fraud_rings` labels are `RING_`-prefixed
three-digit-padded indices (`mkRingId`), strictly increasing in list order
(hence unique), with every index ≥ 1; the indices are assigned densely from
1 at ring creation, but the post-filter may drop rings, so the surviving
sequence need not start at `RING_001` and may have gaps.  Padding is exactly
three digits for every index up to 999. -/
theorem run_eq (df0 : List Tx) :
    run df0 = runFrom (mkCtx df0) (mkCtx df0).allIds := rfl

theorem runFrom_rings (ctx : Ctx) (ids : List String) :
    (runFrom ctx ids).fraud_rings = (postFilter ctx.wl (assemble ctx ids)).ringsL :=
  rfl

theorem mkCtx_cyc (df0 : List Tx) :
    (mkCtx df0).cyc = detect_cycles (mkCtx df0).g (mkCtx df0).wl := rfl

set_option maxRecDepth 8000 in
theorem C2_ring_labels_amended (df0 : List Tx) :
    (∃ ks : List ℕ,
      (run df0).fraud_rings.map Ring.ring_id = ks.map mkRingId ∧
      ks.Pairwise (· < ·) ∧ ∀ k ∈ ks, 1 ≤ k) ∧
    (∀ k ≤ 999, (pad3 k).length = 3) := by
  constructor
  · rw [run_eq, runFrom_rings]
    exact postFilter_spec _ _
      (assemble_spec (mkCtx df0) (mkCtx df0).allIds (mkCtx_cyc df0)).1
  · decide

/-! ## Chasing a final suspect back to its `mkSuspect` record

Everything `run` does to a suspect record after creation either filters it
out or rewrites its `ring_id`; all other fields survive verbatim. -/

/-- All fields but `ring_id` agree. -/
def SameCore (s₀ s : Suspect) : Prop :=
  s.account_id = s₀.account_id ∧ s.suspicion_score = s₀.suspicion_score ∧
  s.detected_patterns = s₀.detected_patterns ∧
  s.is_mastermind = s₀.is_mastermind ∧
  s.mastermind_score = s₀.mastermind_score ∧ s.cycle_score = s₀.cycle_score ∧
  s.velocity_score = s₀.velocity_score ∧ s.fan_score = s₀.fan_score ∧
  s.shell_score = s₀.shell_score

/-- `s` agrees (up to `ring_id`) with some record of `base`. -/
def FromBase (base : List Suspect) (s : Suspect) : Prop :=
  ∃ s₀ ∈ base, SameCore s₀ s

theorem sameCore_refl (s : Suspect) : SameCore s s :=
  ⟨rfl, rfl, rfl, rfl, rfl, rfl, rfl, rfl, rfl⟩

theorem sameCore_upd (rid m : String) {s₀ s : Suspect} (h : SameCore s₀ s) :
    SameCore s₀ (ringIdUpd rid m s) := by
  unfold ringIdUpd
  split
  · exact h
  · exact h

theorem fromBase_map_upd {base : List Suspect} {rid m : String}
    {l : List Suspect} (h : ∀ s ∈ l, FromBase base s) :
    ∀ s ∈ l.map (ringIdUpd rid m), FromBase base s := by
  intro s hs
  obtain ⟨t, ht, rfl⟩ := List.mem_map.mp hs
  obtain ⟨s₀, h₀, hc⟩ := h t ht
  exact ⟨s₀, h₀, sameCore_upd rid m hc⟩

theorem attachStep_pres {base : List Suspect} (rid : String) (st : AsmState)
    (m : String) (h : ∀ s ∈ st.suspects, FromBase base s) :
    ∀ s ∈ (attachStep rid st m).suspects, FromBase base s := by
  unfold attachStep
  split
  · exact h
  · exact fromBase_map_upd h

theorem attachMembers_pres {base : List Suspect} (st : AsmState) (rid : String)
    (mbrs : List String) (h : ∀ s ∈ st.suspects, FromBase base s) :
    ∀ s ∈ (attachMembers st rid mbrs).suspects, FromBase base s := by
  induction mbrs generalizing st with
  | nil => exact h
  | cons m ms ih => exact ih (attachStep rid st m) (attachStep_pres rid st m h)

theorem emitRing_pres {base : List Suspect} (st : AsmState) (ring : Ring)
    (mbrs : List String) (h : ∀ s ∈ st.suspects, FromBase base s) :
    ∀ s ∈ (emitRing st ring mbrs).suspects, FromBase base s :=
  attachMembers_pres _ _ _ h

theorem smurfStep_pres {base : List Suspect} (ctx : Ctx) (st : AsmState)
    (e : String × List String) (h : ∀ s ∈ st.suspects, FromBase base s) :
    ∀ s ∈ (smurfStep ctx st e).suspects, FromBase base s := by
  unfold smurfStep
  split
  · exact h
  split
  · exact h
  split
  · exact h
  split
  · exact h
  split
  · exact h
  split
  · exact h
  exact emitRing_pres _ _ _ h

theorem shellStep_pres {base : List Suspect} (ctx : Ctx)
    (st : AsmState × List String) (a : String)
    (h : ∀ s ∈ st.1.suspects, FromBase base s) :
    ∀ s ∈ (shellStep ctx st a).1.suspects, FromBase base s := by
  unfold shellStep
  split
  · exact h
  split
  · exact h
  exact emitRing_pres _ _ _ h

theorem assemble_pres (ctx : Ctx) (ids : List String) :
    ∀ s ∈ (assemble ctx ids).suspects,
      FromBase (ids.filterMap (mkSuspect ctx)) s := by
  unfold assemble
  have h₁ := foldl_pres
    (fun st : AsmState => ∀ s ∈ st.suspects, FromBase (ids.filterMap (mkSuspect ctx)) s)
    (smurfStep ctx) (fun s a h => smurfStep_pres ctx s a h)
    ctx.smurf
    { ringsL := ctx.cyc.rings.map
        (cycleRingRecord ctx.df (ids.filterMap (mkSuspect ctx)) ctx.mm),
      rmap := ctx.cyc.ring_map, suspects := ids.filterMap (mkSuspect ctx),
      ctr := ctx.cyc.rings.length + 1 }
    (fun s hs => ⟨s, hs, sameCore_refl s⟩)
  exact foldl_pres
    (fun st : AsmState × List String =>
      ∀ s ∈ st.1.suspects, FromBase (ids.filterMap (mkSuspect ctx)) s)
    (shellStep ctx) (fun s a h => shellStep_pres ctx s a h)
    (ctx.shells.map Prod.fst) (_, []) h₁

theorem postFilter_suspects_sub (wl : List String) (st : AsmState) :
    ∀ s ∈ (postFilter wl st).suspects, s ∈ st.suspects := by
  intro s hs
  have h₆ : s ∈ (dropOrphans (drop4 (drop3 (drop2
      (drop1 ⟨st.suspects, st.ringsL, 0⟩))))).suspects :=
    List.mem_of_mem_filter hs
  have h₅ : s ∈ (drop4 (drop3 (drop2 (drop1 ⟨st.suspects, st.ringsL, 0⟩)))).suspects :=
    List.mem_of_mem_filter h₆
  have h₄ : s ∈ (drop3 (drop2 (drop1 ⟨st.suspects, st.ringsL, 0⟩))).suspects :=
    List.mem_of_mem_filter h₅
  have h₃ : s ∈ (drop2 (drop1 ⟨st.suspects, st.ringsL, 0⟩)).suspects :=
    List.mem_of_mem_filter h₄
  have h₂ : s ∈ (drop1 ⟨st.suspects, st.ringsL, 0⟩).suspects :=
    List.mem_of_mem_filter h₃
  exact List.mem_of_mem_filter h₂

theorem runFrom_suspects (ctx : Ctx) (ids : List String) :
    (runFrom ctx ids).suspicious_accounts =
      (postFilter ctx.wl (assemble ctx ids)).suspects.insertionSort scoreGeP := rfl

/-- Every suspect of the final output agrees, up to `ring_id`, with a
record produced by `mkSuspect` for some id of the iteration list. -/
theorem mem_run_suspects {ctx : Ctx} {ids : List String} {s : Suspect}
    (h : s ∈ (runFrom ctx ids).suspicious_accounts) :
    ∃ acct s₀, mkSuspect ctx acct = some s₀ ∧ SameCore s₀ s := by
  rw [runFrom_suspects] at h
  have h₁ : s ∈ (postFilter ctx.wl (assemble ctx ids)).suspects :=
    (List.perm_insertionSort scoreGeP _).mem_iff.mp h
  have h₂ := postFilter_suspects_sub ctx.wl (assemble ctx ids) s h₁
  obtain ⟨s₀, hs₀, hc⟩ := assemble_pres ctx ids s h₂
  obtain ⟨acct, _, hmk⟩ := List.mem_filterMap.mp hs₀
  exact ⟨acct, s₀, hmk, hc⟩

theorem mkSuspect_fields {ctx : Ctx} {acct : String} {s₀ : Suspect}
    (h : mkSuspect ctx acct = some s₀) :
    0 < (scOf ctx acct).total ∧
    s₀.suspicion_score = (scOf ctx acct).total ∧
    s₀.detected_patterns = suspectPats ctx acct ∧
    s₀.cycle_score = (scOf ctx acct).cycle_score ∧
    s₀.velocity_score = (scOf ctx acct).velocity_score ∧
    s₀.fan_score = (scOf ctx acct).fan_score ∧
    s₀.shell_score = (scOf ctx acct).shell_score := by
  unfold mkSuspect at h
  split at h
  · cases h
  · cases h
    next hpos =>
      exact ⟨lt_of_not_le hpos, rfl, rfl, rfl, rfl, rfl, rfl⟩

/-! ## C3 — suspicion score bounds -/

/-- **C3.** Every suspect of the final output has `0 < suspicion_score ≤
100`; the component scores respect their caps (`cycle ≤ 40`,
`velocity ≤ 25`, `fan ≤ 20`, `shell ≤ 15`, all non-negative); and the
score equals the sum of the `score_breakdown` components capped at 100
within `±0.01` (the slack absorbs the per-component two-decimal
rounding). -/
theorem C3_suspicion_score_invariants (df0 : List Tx) (s : Suspect)
    (h : s ∈ (run df0).suspicious_accounts) :
    0 < s.suspicion_score ∧ s.suspicion_score ≤ 100 ∧
    0 ≤ s.cycle_score ∧ s.cycle_score ≤ 40 ∧
    0 ≤ s.velocity_score ∧ s.velocity_score ≤ 25 ∧
    0 ≤ s.fan_score ∧ s.fan_score ≤ 20 ∧
    0 ≤ s.shell_score ∧ s.shell_score ≤ 15 ∧
    |s.suspicion_score -
      min 100 (s.cycle_score + s.velocity_score + s.fan_score + s.shell_score)|
      ≤ 1/100 := by
  rw [run_eq] at h
  obtain ⟨acct, s₀, hmk, hc⟩ := mem_run_suspects h
  obtain ⟨hpos, hts, _, hcs, hvs, hfs, hss⟩ := mkSuspect_fields hmk
  obtain ⟨ht0, ht100, hc0, hc40, hv0, hv25, hf0, hf20, hs0, hs15, habs⟩ :=
    compute_suspicion_score_spec acct (mkCtx df0).g (mkCtx df0).df (mkCtx df0).cyc
      (mkCtx df0).smurf (mkCtx df0).shells (some (mkCtx df0).pre)
  obtain ⟨_, h1, _, _, _, h5, h6, h7, h8⟩ := hc
  rw [h1, h5, h6, h7, h8, hts, hcs, hvs, hfs, hss]
  exact ⟨hpos, ht100, hc0, hc40, hv0, hv25, hf0, hf20, hs0, hs15, habs⟩

/-- Witness for C3: the all-fraud triangle's first suspect. -/
theorem C3_suspicion_score_invariants_witness :
    0 < (⟨"CYC3_A", 125/2, ["cycle_length_3"], some "RING_001", false, none,
          40, 5/2, 20, 0⟩ : Suspect).suspicion_score ∧
    (⟨"CYC3_A", 125/2, ["cycle_length_3"], some "RING_001", false, none,
          40, 5/2, 20, 0⟩ : Suspect).suspicion_score ≤ 100 ∧
    0 ≤ (⟨"CYC3_A", 125/2, ["cycle_length_3"], some "RING_001", false, none,
          40, 5/2, 20, 0⟩ : Suspect).cycle_score ∧
    (⟨"CYC3_A", 125/2, ["cycle_length_3"], some "RING_001", false, none,
          40, 5/2, 20, 0⟩ : Suspect).cycle_score ≤ 40 ∧
    0 ≤ (⟨"CYC3_A", 125/2, ["cycle_length_3"], some "RING_001", false, none,
          40, 5/2, 20, 0⟩ : Suspect).velocity_score ∧
    (⟨"CYC3_A", 125/2, ["cycle_length_3"], some "RING_001", false, none,
          40, 5/2, 20, 0⟩ : Suspect).velocity_score ≤ 25 ∧
    0 ≤ (⟨"CYC3_A", 125/2, ["cycle_length_3"], some "RING_001", false, none,
          40, 5/2, 20, 0⟩ : Suspect).fan_score ∧
    (⟨"CYC3_A", 125/2, ["cycle_length_3"], some "RING_001", false, none,
          40, 5/2, 20, 0⟩ : Suspect).fan_score ≤ 20 ∧
    0 ≤ (⟨"CYC3_A", 125/2, ["cycle_length_3"], some "RING_001", false, none,
          40, 5/2, 20, 0⟩ : Suspect).shell_score ∧
    (⟨"CYC3_A", 125/2, ["cycle_length_3"], some "RING_001", false, none,
          40, 5/2, 20, 0⟩ : Suspect).shell_score ≤ 15 ∧
    |(⟨"CYC3_A", 125/2, ["cycle_length_3"], some "RING_001", false, none,
          40, 5/2, 20, 0⟩ : Suspect).suspicion_score -
      min 100 ((⟨"CYC3_A", 125/2, ["cycle_length_3"], some "RING_001", false, none,
          40, 5/2, 20, 0⟩ : Suspect).cycle_score +
        (⟨"CYC3_A", 125/2, ["cycle_length_3"], some "RING_001", false, none,
          40, 5/2, 20, 0⟩ : Suspect).velocity_score +
        (⟨"CYC3_A", 125/2, ["cycle_length_3"], some "RING_001", false, none,
          40, 5/2, 20, 0⟩ : Suspect).fan_score +
        (⟨"CYC3_A", 125/2, ["cycle_length_3"], some "RING_001", false, none,
          40, 5/2, 20, 0⟩ : Suspect).shell_score)| ≤ 1/100 :=
  C3_suspicion_score_invariants
    [⟨"CYC3_A", "CYC3_B", 3000, 0⟩, ⟨"CYC3_B", "CYC3_C", 3000, 10⟩,
     ⟨"CYC3_C", "CYC3_A", 3000, 20⟩]
    ⟨"CYC3_A", 125/2, ["cycle_length_3"], some "RING_001", false, none,
      40, 5/2, 20, 0⟩
    (by decide)

/-! ## C7 — only cycles of length 3–5 are reported -/

theorem rawCycles_len {g : DiGraph} {wl : List String} {c : List String}
    (h : c ∈ rawCycles g wl) : 3 ≤ c.length ∧ c.length ≤ 5 := by
  unfold rawCycles at h
  have h2 := (List.mem_filter.mp h).2
  simp only [Bool.and_eq_true, decide_eq_true_eq, MIN_CYCLE_LENGTH,
    MAX_CYCLE_LENGTH] at h2
  exact ⟨h2.1.1, h2.1.2⟩

/-- Values stored by `dictAppend` stay within a property. -/
theorem dictAppend_vals {α : Type} {P : α → Prop} {m : List (String × List α)}
    {k : String} {v : α} (hm : ∀ p ∈ m, ∀ x ∈ p.2, P x) (hv : P v) :
    ∀ p ∈ dictAppend m k v, ∀ x ∈ p.2, P x := by
  unfold dictAppend
  split
  · intro p hp x hx
    obtain ⟨q, hq, rfl⟩ := List.mem_map.mp hp
    by_cases hqk : (q.1 == k) = true
    · rw [if_pos hqk] at hx
      rcases List.mem_append.mp hx with hx | hx
      · exact hm q hq x hx
      · rw [List.mem_singleton] at hx
        subst hx
        exact hv
    · rw [if_neg hqk] at hx
      exact hm q hq x hx
  · intro p hp x hx
    rcases List.mem_append.mp hp with hp | hp
    · exact hm p hp x hx
    · rw [List.mem_singleton] at hp
      subst hp
      rw [List.mem_singleton] at hx
      subst hx
      exact hv

theorem foldl_dictAppend_vals {α : Type} {P : α → Prop} (v : α) (hv : P v) :
    ∀ (l : List String) (m : List (String × List α)),
      (∀ p ∈ m, ∀ x ∈ p.2, P x) →
      ∀ p ∈ l.foldl (fun m a => dictAppend m a v) m, ∀ x ∈ p.2, P x := by
  intro l
  induction l with
  | nil => exact fun m hm => hm
  | cons a as ih => exact fun m hm => ih _ (dictAppend_vals hm hv)

/-- Every tag `detect_smurfing` stores is one of the three smurfing tags. -/
theorem detect_smurfing_tags (df : List Tx) :
    ∀ p ∈ detect_smurfing df, ∀ t ∈ p.2,
      t ∈ ["fan_in", "fan_out", "high_velocity"] := by
  unfold detect_smurfing
  refine @foldl_dictAppend_vals String
    (fun t => t ∈ ["fan_in", "fan_out", "high_velocity"]) "high_velocity"
    (by simp) (velocityAccts df) _ ?_
  refine @foldl_dictAppend_vals String
    (fun t => t ∈ ["fan_in", "fan_out", "high_velocity"]) "fan_out"
    (by simp) (fanOutAccts df) _ ?_
  refine @foldl_dictAppend_vals String
    (fun t => t ∈ ["fan_in", "fan_out", "high_velocity"]) "fan_in"
    (by simp) (fanInAccts df) _ ?_
  intro p hp
  cases hp

/-- Every cycle stored in `memberCycles raw` is one of `raw`. -/
theorem memberCycles_sub (raw : List (List String)) :
    ∀ p ∈ memberCycles raw, ∀ c ∈ p.2, c ∈ raw := by
  unfold memberCycles
  have inner : ∀ (c : List String), c ∈ raw →
      ∀ (ns : List String) (acc : List (String × List (List String))),
      (∀ p ∈ acc, ∀ x ∈ p.2, x ∈ raw) →
      ∀ p ∈ ns.foldl (fun acc n => dictAppend acc n c) acc, ∀ x ∈ p.2, x ∈ raw := by
    intro c hc ns
    induction ns with
    | nil => exact fun acc hacc => hacc
    | cons n ns ih => exact fun acc hacc => ih _ (dictAppend_vals hacc hc)
  have outer : ∀ (l : List (List String)) (acc : List (String × List (List String))),
      (∀ c ∈ l, c ∈ raw) → (∀ p ∈ acc, ∀ x ∈ p.2, x ∈ raw) →
      ∀ p ∈ l.foldl (fun acc c => c.foldl (fun acc n => dictAppend acc n c) acc) acc,
        ∀ x ∈ p.2, x ∈ raw := by
    intro l
    induction l with
    | nil => exact fun acc _ hacc => hacc
    | cons c cs ih =>
      intro acc hl hacc
      exact ih _ (fun c' hc' => hl c' (List.mem_cons_of_mem _ hc'))
        (inner c (hl c (List.mem_cons_self _ _)) _ _ hacc)
  exact outer raw [] (fun c hc => hc) (fun p hp => absurd hp (List.not_mem_nil p))

theorem getD_vals {α : Type} {P : α → Prop} {m : List (String × List α)}
    (hm : ∀ p ∈ m, ∀ x ∈ p.2, P x) (k : String) :
    ∀ x ∈ getD m k [], P x := by
  unfold getD
  cases hf : m.find? (fun p => p.1 == k) with
  | none => exact fun x hx => absurd hx (List.not_mem_nil x)
  | some p => exact hm p (List.mem_of_find?_eq_some hf)

theorem dedupAppend_sub {A ps : List String} {t : String}
    (hps : ∀ p ∈ ps, p ∈ A) (ht : t ∈ A) : ∀ p ∈ dedupAppend ps t, p ∈ A := by
  unfold dedupAppend
  split
  · exact hps
  · intro p hp
    rcases List.mem_append.mp hp with hp | hp
    · exact hps p hp
    · rw [List.mem_singleton] at hp
      subst hp
      exact ht

theorem foldl_dedupAppend_sub {β : Type} (tagOf : β → String) {A : List String} :
    ∀ (l : List β) (acc : List String), (∀ x ∈ l, tagOf x ∈ A) →
      (∀ p ∈ acc, p ∈ A) →
      ∀ p ∈ l.foldl (fun ps x => dedupAppend ps (tagOf x)) acc, p ∈ A := by
  intro l
  induction l with
  | nil => exact fun acc _ hacc => hacc
  | cons x xs ih =>
    intro acc hl hacc
    exact ih _ (fun y hy => hl y (List.mem_cons_of_mem _ hy))
      (dedupAppend_sub hacc (hl x (List.mem_cons_self _ _)))

/-- The fixed vocabulary of `detected_patterns` tags. -/
def tagAlphabet : List String :=
  ["cycle_length_3", "cycle_length_4", "cycle_length_5",
   "fan_in", "fan_out", "high_velocity",
   "shell_chain", "low_transaction_intermediary"]

theorem suspectPats_sub (ctx : Ctx) (acct : String)
    (hcyc : ∀ c ∈ getD ctx.cyc.member_cycles acct [], 3 ≤ c.length ∧ c.length ≤ 5)
    (hsm : ∀ t ∈ getD ctx.smurf acct [], t ∈ ["fan_in", "fan_out", "high_velocity"]) :
    ∀ p ∈ suspectPats ctx acct, p ∈ tagAlphabet := by
  have htag : ∀ c ∈ getD ctx.cyc.member_cycles acct [],
      ("cycle_length_" ++ Nat.repr c.length) ∈ tagAlphabet := by
    intro c hc
    obtain ⟨h3, h5⟩ := hcyc c hc
    interval_cases h : c.length <;> decide
  have hsm' : ∀ t ∈ getD ctx.smurf acct [], t ∈ tagAlphabet := by
    intro t ht
    have := hsm t ht
    simp only [List.mem_cons, List.not_mem_nil, or_false] at this
    rcases this with rfl | rfl | rfl <;> simp [tagAlphabet]
  have hbase : ∀ p ∈ (getD ctx.smurf acct []).foldl (fun ps x => dedupAppend ps x)
      ((getD ctx.cyc.member_cycles acct []).foldl
        (fun ps c => dedupAppend ps ("cycle_length_" ++ Nat.repr c.length)) []),
      p ∈ tagAlphabet := by
    apply foldl_dedupAppend_sub (fun x : String => x) _ _ hsm'
    apply foldl_dedupAppend_sub (fun c : List String => "cycle_length_" ++ Nat.repr c.length)
      _ _ htag
    intro p hp
    cases hp
  unfold suspectPats
  split
  · intro p hp
    rcases List.mem_append.mp hp with hp | hp
    · exact hbase p hp
    · rw [List.mem_cons, List.mem_singleton] at hp
      rcases hp with rfl | rfl <;> decide
  · exact hbase

/-- **C7.** `run` never reports a directed cycle of length 2 or ≥ 6: every
cycle the cycle detector keeps (`raw_cycles`, the cycles underlying the
cycle rings and `member_cycles`) has length in `[3, 5]`, and consequently
every `detected_patterns` tag of every final suspect lies in the fixed
vocabulary, whose only cycle tags are `cycle_length_3/4/5`. -/
theorem C7_cycle_lengths (g : DiGraph) (wl : List String) (df0 : List Tx)
    (s : Suspect) (hs : s ∈ (run df0).suspicious_accounts) :
    (∀ c ∈ (detect_cycles g wl).raw_cycles, 3 ≤ c.length ∧ c.length ≤ 5) ∧
    (∀ p ∈ s.detected_patterns, p ∈ tagAlphabet) := by
  constructor
  · exact fun c hc => rawCycles_len hc
  · rw [run_eq] at hs
    obtain ⟨acct, s₀, hmk, hc⟩ := mem_run_suspects hs
    obtain ⟨_, _, hpats, _⟩ := mkSuspect_fields hmk
    obtain ⟨_, _, h3, _⟩ := hc
    rw [h3, hpats]
    apply suspectPats_sub
    · intro c hcm
      refine @rawCycles_len ((mkCtx df0).g) ((mkCtx df0).wl) _ ?_
      have hsub := memberCycles_sub (rawCycles (mkCtx df0).g (mkCtx df0).wl)
      have hmc : (mkCtx df0).cyc.member_cycles =
          memberCycles (rawCycles (mkCtx df0).g (mkCtx df0).wl) := rfl
      rw [hmc] at hcm
      exact getD_vals hsub acct c hcm
    · have hsm : (mkCtx df0).smurf = detect_smurfing (ctxDf df0) := rfl
      rw [hsm]
      exact fun t ht => getD_vals (detect_smurfing_tags (ctxDf df0)) acct t ht

/-- Witness for C7 on the all-fraud triangle. -/
theorem C7_cycle_lengths_witness :
    (∀ c ∈ (detect_cycles
        (build_graph [⟨"CYC3_A", "CYC3_B", 3000, 0⟩, ⟨"CYC3_B", "CYC3_C", 3000, 10⟩,
                      ⟨"CYC3_C", "CYC3_A", 3000, 20⟩]) []).raw_cycles,
      3 ≤ c.length ∧ c.length ≤ 5) ∧
    (∀ p ∈ (⟨"CYC3_A", 125/2, ["cycle_length_3"], some "RING_001", false, none,
        40, 5/2, 20, 0⟩ : Suspect).detected_patterns, p ∈ tagAlphabet) :=
  C7_cycle_lengths
    (build_graph [⟨"CYC3_A", "CYC3_B", 3000, 0⟩, ⟨"CYC3_B", "CYC3_C", 3000, 10⟩,
                  ⟨"CYC3_C", "CYC3_A", 3000, 20⟩]) []
    [⟨"CYC3_A", "CYC3_B", 3000, 0⟩, ⟨"CYC3_B", "CYC3_C", 3000, 10⟩,
     ⟨"CYC3_C", "CYC3_A", 3000, 20⟩]
    ⟨"CYC3_A", 125/2, ["cycle_length_3"], some "RING_001", false, none,
      40, 5/2, 20, 0⟩
    (by decide)

/-! ## C5 — the mastermind detector -/

theorem foldl_min_le_init (l : List ℚ) (a : ℚ) : l.foldl min a ≤ a := by
  induction l generalizing a with
  | nil => exact le_refl a
  | cons x xs ih => exact le_trans (ih (min a x)) (min_le_left a x)

theorem foldl_min_le_mem (l : List ℚ) (a : ℚ) : ∀ x ∈ l, l.foldl min a ≤ x := by
  induction l generalizing a with
  | nil => intro x hx; cases hx
  | cons y ys ih =>
    intro x hx
    rcases List.mem_cons.mp hx with rfl | hx
    · exact le_trans (foldl_min_le_init ys (min a x)) (min_le_right a x)
    · exact ih (min a y) x hx

theorem listMinD_le {l : List ℚ} {d : ℚ} : ∀ x ∈ l, listMinD l d ≤ x := by
  intro x hx
  cases l with
  | nil => cases hx
  | cons y ys =>
    show ys.foldl min y ≤ x
    rcases List.mem_cons.mp hx with rfl | hx
    · exact foldl_min_le_init ys x
    · exact foldl_min_le_mem ys y x hx

/-- Values of a `normMap` are non-negative. -/
theorem normMap_nonneg (d : List (String × ℚ)) : ∀ p ∈ normMap d, 0 ≤ p.2 := by
  cases d with
  | nil => intro p hp; cases hp
  | cons q qs =>
    show ∀ p ∈ (if listMinD ((q :: qs).map Prod.snd) 0 <
        listMaxD ((q :: qs).map Prod.snd) 0 then
        (q :: qs).map (fun p =>
          (p.1, (p.2 - listMinD ((q :: qs).map Prod.snd) 0) /
            (listMaxD ((q :: qs).map Prod.snd) 0 - listMinD ((q :: qs).map Prod.snd) 0)))
      else (q :: qs).map (fun p => (p.1, 1/2))), 0 ≤ p.2
    split
    next hlt =>
      intro p hp
      obtain ⟨r, hr, rfl⟩ := List.mem_map.mp hp
      have hmn : listMinD ((q :: qs).map Prod.snd) 0 ≤ r.2 :=
        listMinD_le r.2 (List.mem_map.mpr ⟨r, hr, rfl⟩)
      have hd : 0 ≤ listMaxD ((q :: qs).map Prod.snd) 0 -
          listMinD ((q :: qs).map Prod.snd) 0 := by linarith
      exact div_nonneg (by linarith) hd
    next hlt =>
      intro p hp
      obtain ⟨r, _, rfl⟩ := List.mem_map.mp hp
      norm_num

theorem getD_half_nonneg {m : List (String × ℚ)} {n : String}
    (hm : ∀ p ∈ m, 0 ≤ p.2) : 0 ≤ getD m n (1/2 : ℚ) := by
  unfold getD
  cases hf : m.find? (fun p => p.1 == n) with
  | none => norm_num
  | some p => exact hm p (List.mem_of_find?_eq_some hf)

theorem mmComposite_nonneg (g : DiGraph) (mbrs : List String) (n : String) :
    0 ≤ mmComposite (mmBc g mbrs) (mmOd g mbrs) (mmVol g mbrs) n := by
  have h1 : 0 ≤ getD (mmBc g mbrs) n (1/2) :=
    getD_half_nonneg (normMap_nonneg _)
  have h2 : 0 ≤ getD (mmOd g mbrs) n (1/2) :=
    getD_half_nonneg (normMap_nonneg _)
  have h3 : 0 ≤ getD (mmVol g mbrs) n (1/2) :=
    getD_half_nonneg (normMap_nonneg _)
  unfold mmComposite
  have e1 : (0:ℚ) ≤ 1/10 := by norm_num
  have e2 : (0:ℚ) ≤ 5/10 := by norm_num
  have e3 : (0:ℚ) ≤ 4/10 := by norm_num
  exact add_nonneg (add_nonneg (mul_nonneg h1 e1) (mul_nonneg h2 e2))
    (mul_nonneg h3 e3)

theorem mmStep_isSome (bc od vol : List (String × ℚ)) (b : Option String × ℚ)
    (n : String) (h : b.1.isSome = true) :
    ((mmStep bc od vol b n).1).isSome = true := by
  unfold mmStep
  split
  · rfl
  · exact h

theorem mmBest_fold_isSome (bc od vol : List (String × ℚ)) :
    ∀ (l : List String) (acc : Option String × ℚ), acc.1.isSome = true →
      ((l.foldl (mmStep bc od vol) acc).1).isSome = true := by
  intro l
  induction l with
  | nil => exact fun acc h => h
  | cons n ns ih => exact fun acc h => ih _ (mmStep_isSome bc od vol acc n h)

theorem mmBest_fold_mem (bc od vol : List (String × ℚ)) (S : List String) :
    ∀ (l : List String) (acc : Option String × ℚ), (∀ n ∈ l, n ∈ S) →
      (∀ x, acc.1 = some x → x ∈ S) →
      ∀ x, ((l.foldl (mmStep bc od vol) acc).1) = some x → x ∈ S := by
  intro l
  induction l with
  | nil => exact fun acc _ hacc => hacc
  | cons n ns ih =>
    intro acc hl hacc
    refine ih _ (fun m hm => hl m (List.mem_cons_of_mem _ hm)) ?_
    intro x hx
    unfold mmStep at hx
    split at hx
    · cases hx
      exact hl n (List.mem_cons_self _ _)
    · exact hacc x hx

/-- For a nonempty member list the composite argmax always selects some
member (every composite is ≥ 0 > −1). -/
theorem mmBestOf_some (g : DiGraph) (mbrs : List String) (h : mbrs ≠ []) :
    ∃ b, (mmBestOf g mbrs).1 = some b ∧ b ∈ mbrs := by
  cases mbrs with
  | nil => exact absurd rfl h
  | cons m ms =>
    have hc := mmComposite_nonneg g (m :: ms) m
    have hstep : mmStep (mmBc g (m :: ms)) (mmOd g (m :: ms)) (mmVol g (m :: ms))
        (none, -1) m =
        (some m, mmComposite (mmBc g (m :: ms)) (mmOd g (m :: ms))
          (mmVol g (m :: ms)) m) := by
      unfold mmStep
      rw [if_pos (by simpa using lt_of_lt_of_le (by norm_num : (-1:ℚ) < 0) hc)]
    have heq : mmBestOf g (m :: ms) =
        ms.foldl (mmStep (mmBc g (m :: ms)) (mmOd g (m :: ms)) (mmVol g (m :: ms)))
          (some m, mmComposite (mmBc g (m :: ms)) (mmOd g (m :: ms))
            (mmVol g (m :: ms)) m) := by
      unfold mmBestOf mmBest
      rw [List.foldl_cons, hstep]
    have hsome := mmBest_fold_isSome (mmBc g (m :: ms)) (mmOd g (m :: ms))
      (mmVol g (m :: ms)) ms
      (some m, mmComposite (mmBc g (m :: ms)) (mmOd g (m :: ms))
        (mmVol g (m :: ms)) m) rfl
    rw [← heq] at hsome
    obtain ⟨b, hb⟩ := Option.isSome_iff_exists.mp hsome
    have hb' := hb
    rw [heq] at hb'
    refine ⟨b, hb, ?_⟩
    refine mmBest_fold_mem (mmBc g (m :: ms)) (mmOd g (m :: ms)) (mmVol g (m :: ms))
      (m :: ms) ms _ (fun n hn => List.mem_cons_of_mem _ hn) ?_ b hb'
    intro x hx
    cases hx
    exact List.mem_cons_self _ _

/-- **C5.** For a cycle ring whose members are not all `LEGIT_`-prefixed
and whose induced subgraph has ≥ 2 nodes (and no pathological empty-string
member id): (i) the composite is `0.10·bc + 0.50·od + 0.40·vol` over the
min-max-normalized maps; (ii) when `min == max` the normalization makes
all values `0.5`; (iii) a mastermind entry is emitted iff the maximal
composite is ≥ 0.75; (iv) `c_max = 0.90` lands exactly in the `[0.90, ∞)`
branch, whose base score at `0.90` is 95; (v) the emitted score is
`round1(min(100, base + 15·(ring_membership − 1)))` for the selected
member. -/
theorem C5_mastermind (g : DiGraph) (rings : List (String × List String))
    (mbrs : List String) (h1 : all_legit mbrs = false)
    (h2 : 2 ≤ (g.nodes.filter (fun n => mbrs.contains n)).length)
    (h3 : ¬ "" ∈ mbrs) :
    (∀ n, mmComposite (mmBc g mbrs) (mmOd g mbrs) (mmVol g mbrs) n =
      getD (mmBc g mbrs) n (1/2) * (1/10) + getD (mmOd g mbrs) n (1/2) * (5/10) +
      getD (mmVol g mbrs) n (1/2) * (4/10)) ∧
    (∀ d : List (String × ℚ), d ≠ [] →
      listMinD (d.map Prod.snd) 0 = listMaxD (d.map Prod.snd) 0 →
      ∀ p ∈ normMap d, p.2 = 1/2) ∧
    ((∃ e, mmEntryFor g rings mbrs = some e) ↔
      3/4 ≤ (mmBestOf g mbrs).2) ∧
    mmBase (9/10) = 95 ∧
    (∀ e, mmEntryFor g rings mbrs = some e →
      ∃ b, (mmBestOf g mbrs).1 = some b ∧ e.account_id = b ∧
        e.mastermind_score =
          pyRound (min 100 (mmBase (mmBestOf g mbrs).2 +
            ((ringCount rings b : ℚ) - 1) * 15)) 1) := by
  have hne : mbrs ≠ [] := by
    intro hnil
    subst hnil
    simp at h2
  have hlen : ¬ (g.nodes.filter (fun n => mbrs.contains n)).length ≤ 1 := by omega
  obtain ⟨b, hb, hbm⟩ := mmBestOf_some g mbrs hne
  have hbne : (b == "") = false := by
    rw [beq_eq_false_iff_ne]
    intro hbe
    exact h3 (hbe ▸ hbm)
  refine ⟨fun n => rfl, ?_, ?_, by norm_num [mmBase], ?_⟩
  · intro d hd hmm p hp
    cases d with
    | nil => exact absurd rfl hd
    | cons q qs =>
      have hnm : normMap (q :: qs) = (q :: qs).map (fun p => (p.1, 1/2)) := by
        show (if listMinD ((q :: qs).map Prod.snd) 0 <
            listMaxD ((q :: qs).map Prod.snd) 0 then
            (q :: qs).map (fun p =>
              (p.1, (p.2 - listMinD ((q :: qs).map Prod.snd) 0) /
                (listMaxD ((q :: qs).map Prod.snd) 0 -
                 listMinD ((q :: qs).map Prod.snd) 0)))
          else (q :: qs).map (fun p => (p.1, 1/2))) = _
        rw [if_neg (by rw [hmm]; exact lt_irrefl _)]
      rw [hnm] at hp
      obtain ⟨r, _, rfl⟩ := List.mem_map.mp hp
      rfl
  · constructor
    · rintro ⟨e, he⟩
      unfold mmEntryFor at he
      rw [if_neg (by rw [h1]; exact Bool.false_ne_true), if_neg hlen, hb] at he
      split at he
      · cases he
      next b' hb' =>
        cases Option.some.inj hb'
        split at he
        · cases he
        next hcond =>
          rw [Bool.or_eq_true, not_or, decide_eq_true_eq] at hcond
          exact not_lt.mp hcond.2
    · intro hge
      refine ⟨⟨b, pyRound (min 100 (mmBase (mmBestOf g mbrs).2 +
        ((ringCount rings b : ℚ) - 1) * 15)) 1⟩, ?_⟩
      unfold mmEntryFor
      rw [if_neg (by rw [h1]; exact Bool.false_ne_true), if_neg hlen, hb]
      show (if (b == "" || decide ((mmBestOf g mbrs).2 < 3/4)) = true then none
        else some (⟨b, pyRound (min 100 (mmBase (mmBestOf g mbrs).2 +
          ((ringCount rings b : ℚ) - 1) * 15)) 1⟩ : MmEntry)) =
        some (⟨b, pyRound (min 100 (mmBase (mmBestOf g mbrs).2 +
          ((ringCount rings b : ℚ) - 1) * 15)) 1⟩ : MmEntry)
      rw [if_neg (by rw [hbne, decide_eq_false (not_lt.mpr hge)]; simp)]
  · intro e he
    unfold mmEntryFor at he
    rw [if_neg (by rw [h1]; exact Bool.false_ne_true), if_neg hlen, hb] at he
    split at he
    · cases he
    next b' hb' =>
      cases Option.some.inj hb'
      split at he
      · cases he
      · cases he
        exact ⟨b, hb, rfl, rfl⟩

/-- Witness for C5: the triangle with an extra `A → C` edge; `CYC3_A`
dominates out-degree and volume, its composite is 1, and its mastermind
score is 100. -/
theorem C5_mastermind_witness :
    (∃ e, mmEntryFor
      (build_graph [⟨"CYC3_A", "CYC3_B", 5000, 0⟩, ⟨"CYC3_B", "CYC3_C", 5000, 10⟩,
                    ⟨"CYC3_C", "CYC3_A", 5000, 20⟩, ⟨"CYC3_A", "CYC3_C", 5000, 30⟩])
      [("RING_001", ["CYC3_A", "CYC3_B", "CYC3_C"])]
      ["CYC3_A", "CYC3_B", "CYC3_C"] = some e) :=
  ((C5_mastermind
    (build_graph [⟨"CYC3_A", "CYC3_B", 5000, 0⟩, ⟨"CYC3_B", "CYC3_C", 5000, 10⟩,
                  ⟨"CYC3_C", "CYC3_A", 5000, 20⟩, ⟨"CYC3_A", "CYC3_C", 5000, 30⟩])
    [("RING_001", ["CYC3_A", "CYC3_B", "CYC3_C"])]
    ["CYC3_A", "CYC3_B", "CYC3_C"]
    (by decide) (by decide) (by decide)).2.2.1).mpr (by decide)

/-! ## C10 — the two velocity paths of `compute_suspicion_score` -/

theorem mem_foldl_dedup {α : Type} [DecidableEq α] (l : List α) :
    ∀ (acc : List α) (y : α),
      (y ∈ l.foldl (fun a x => if x ∈ a then a else a ++ [x]) acc) ↔
        (y ∈ acc ∨ y ∈ l) := by
  induction l with
  | nil =>
      intro acc y
      simp
  | cons x xs ih =>
      intro acc y
      simp only [List.foldl_cons]
      by_cases hx : x ∈ acc
      · rw [if_pos hx, ih, List.mem_cons]
        constructor
        · rintro (h | h)
          · exact Or.inl h
          · exact Or.inr (Or.inr h)
        · rintro (h | rfl | h)
          · exact Or.inl h
          · exact Or.inl hx
          · exact Or.inr h
      · rw [if_neg hx, ih, List.mem_append, List.mem_singleton, List.mem_cons]
        tauto

theorem mem_firstDedup {α : Type} [DecidableEq α] {l : List α} {y : α} :
    y ∈ firstDedup l ↔ y ∈ l := by
  unfold firstDedup
  rw [mem_foldl_dedup]
  simp

theorem foldl_dedup_of_nodup {α : Type} [DecidableEq α] (l : List α) :
    ∀ acc : List α, l.Nodup → (∀ x ∈ l, x ∉ acc) →
      l.foldl (fun a x => if x ∈ a then a else a ++ [x]) acc = acc ++ l := by
  induction l with
  | nil =>
      intro acc _ _
      simp
  | cons x xs ih =>
      intro acc hnd hdis
      have h2 : ∀ z ∈ xs, z ∉ acc ++ [x] := by
        intro z hz hmem
        rcases List.mem_append.mp hmem with h | h
        · exact hdis z (List.mem_cons_of_mem _ hz) h
        · exact (List.nodup_cons.mp hnd).1 ((List.mem_singleton.mp h) ▸ hz)
      simp only [List.foldl_cons]
      rw [if_neg (hdis x (List.mem_cons_self _ _)),
        ih (acc ++ [x]) (List.Nodup.of_cons hnd) h2, List.append_assoc]
      rfl

theorem firstDedup_of_nodup {α : Type} [DecidableEq α] {l : List α}
    (h : l.Nodup) : firstDedup l = l := by
  unfold firstDedup
  rw [foldl_dedup_of_nodup l [] h (by intro x _ hx; cases hx)]
  rfl

theorem distinctCount_of_nodup {α : Type} [DecidableEq α] {l : List α}
    (h : l.Nodup) : distinctCount l = l.length := by
  unfold distinctCount
  rw [firstDedup_of_nodup h]

theorem getD_map_mem (keys : List String) (f : String → ℕ) (k : String)
    (hk : k ∈ keys) :
    getD (keys.map (fun a => (a, f a))) k 0 = f k := by
  induction keys with
  | nil => cases hk
  | cons x xs ih =>
      by_cases hx : x = k
      · subst hx
        unfold getD
        rw [List.map_cons, List.find?_cons_of_pos _ (by exact beq_self_eq_true x)]
      · unfold getD at ih ⊢
        rw [List.map_cons, List.find?_cons_of_neg _ (by simp [hx])]
        refine ih ?_
        rcases List.mem_cons.mp hk with h | h
        · exact absurd h.symm hx
        · exact h

theorem getD_map_not_mem (keys : List String) (f : String → ℕ) (k : String)
    (hk : k ∉ keys) :
    getD (keys.map (fun a => (a, f a))) k 0 = 0 := by
  induction keys with
  | nil => rfl
  | cons x xs ih =>
      unfold getD at ih ⊢
      rw [List.map_cons, List.find?_cons_of_neg _ (by
        simp only [beq_iff_eq]
        intro hc
        exact hk (List.mem_cons.mpr (Or.inl hc.symm)))]
      exact ih (fun h => hk (List.mem_cons_of_mem _ h))

theorem winLeft_le (ts : List ℤ) (wt : ℤ) (r : ℕ) : winLeft ts wt r ≤ r := by
  unfold winLeft
  rcases hf : (List.range (r + 1)).find?
      (fun l => decide (ts.getD r 0 - ts.getD l 0 ≤ wt)) with _ | l
  · exact Nat.le_refl r
  · exact Nat.lt_succ_iff.mp (List.mem_range.mp (List.mem_of_find?_eq_some hf))

theorem slice_sublist {α : Type} (xs : List α) (l r : ℕ) :
    (slice xs l r).Sublist xs := by
  unfold slice
  exact (List.take_sublist _ _).trans (List.drop_sublist _ _)

theorem slice_length {α : Type} (xs : List α) (l r : ℕ) (hl : l ≤ r)
    (hr : r < xs.length) : (slice xs l r).length = r + 1 - l := by
  unfold slice
  rw [List.length_take, List.length_drop]
  omega

theorem foldl_max_congr (l : List ℕ) (f g : ℕ → ℕ) :
    ∀ a : ℕ, (∀ r ∈ l, f r = g r) →
    l.foldl (fun mx r => max mx (f r)) a = l.foldl (fun mx r => max mx (g r)) a := by
  induction l with
  | nil =>
      intro a _
      rfl
  | cons x xs ih =>
      intro a h
      simp only [List.foldl_cons]
      rw [h x (List.mem_cons_self _ _)]
      exact ih _ (fun r hr => h r (List.mem_cons_of_mem _ hr))

instance : IsTotal ℤ intLeP :=
  ⟨fun a b => (le_total a b).imp decide_eq_true decide_eq_true⟩

instance : IsTrans ℤ intLeP :=
  ⟨fun _ _ _ hab hbc => decide_eq_true
    (le_trans (of_decide_eq_true hab) (of_decide_eq_true hbc))⟩

instance : IsAntisymm ℤ intLeP :=
  ⟨fun _ _ hab hba => le_antisymm (of_decide_eq_true hab) (of_decide_eq_true hba)⟩

instance : IsTotal Tx tsLeP :=
  ⟨fun a b => (le_total a.ts b.ts).imp decide_eq_true decide_eq_true⟩

instance : IsTrans Tx tsLeP :=
  ⟨fun _ _ _ hab hbc => decide_eq_true
    (le_trans (of_decide_eq_true hab) (of_decide_eq_true hbc))⟩

/-- Sorting the rows by timestamp and projecting the timestamps gives the
sorted timestamp list (both sides are sorted permutations of the same
multiset). -/
theorem sorted_ts_map (rows : List Tx) :
    (sortByTs rows).map Tx.ts = (rows.map Tx.ts).insertionSort intLeP := by
  have hp : List.Perm ((sortByTs rows).map Tx.ts)
      ((rows.map Tx.ts).insertionSort intLeP) :=
    ((List.perm_insertionSort tsLeP rows).map Tx.ts).trans
      (List.perm_insertionSort intLeP (rows.map Tx.ts)).symm
  have hs1 : List.Sorted intLeP ((sortByTs rows).map Tx.ts) :=
    List.Pairwise.map Tx.ts (fun a b h => h) (List.sorted_insertionSort tsLeP rows)
  have hs2 : List.Sorted intLeP ((rows.map Tx.ts).insertionSort intLeP) :=
    List.sorted_insertionSort intLeP (rows.map Tx.ts)
  exact List.eq_of_perm_of_sorted hp hs1 hs2

/-- When the senders of the rows are pairwise distinct, the window
distinct-sender maximum of the pre-pass coincides with the plain window
row-count maximum of the fallback path. -/
theorem maxWin_eq_fallback (inc : List Tx)
    (h3 : (inc.map Tx.sender).Nodup) :
    maxWinDistinct inc =
      (if inc.isEmpty then 0
       else
        (List.range ((inc.map Tx.ts).insertionSort intLeP).length).foldl
          (fun mx r => max mx (r + 1 -
            winLeft ((inc.map Tx.ts).insertionSort intLeP)
              VELOCITY_WINDOW_SECONDS r)) 0) := by
  by_cases he : inc.isEmpty = true
  · rw [if_pos he]
    have hnil : inc = [] := by
      cases inc with
      | nil => rfl
      | cons t ts => simp at he
    rw [hnil]
    rfl
  · rw [if_neg he]
    show (List.range (sortByTs inc).length).foldl
        (fun mx r => max mx (distinctCount (slice ((sortByTs inc).map Tx.sender)
          (winLeft ((sortByTs inc).map Tx.ts) VELOCITY_WINDOW_SECONDS r) r))) 0
      = (List.range ((inc.map Tx.ts).insertionSort intLeP).length).foldl
          (fun mx r => max mx (r + 1 -
            winLeft ((inc.map Tx.ts).insertionSort intLeP)
              VELOCITY_WINDOW_SECONDS r)) 0
    have hts : (sortByTs inc).map Tx.ts = (inc.map Tx.ts).insertionSort intLeP :=
      sorted_ts_map inc
    have hlen : (sortByTs inc).length =
        ((inc.map Tx.ts).insertionSort intLeP).length := by
      rw [← hts, List.length_map]
    have hnd2 : ((sortByTs inc).map Tx.sender).Nodup :=
      (((List.perm_insertionSort tsLeP inc).map Tx.sender).nodup_iff).mpr h3
    simp only [hts, hlen]
    apply foldl_max_congr
    intro r hr
    rw [distinctCount_of_nodup (List.Nodup.sublist (slice_sublist _ _ _) hnd2),
      slice_length _ _ _ (winLeft_le _ _ _)
        (by rw [List.length_map, hlen]; exact List.mem_range.mp hr)]

theorem mem_sortStr {l : List String} {x : String} : x ∈ sortStr l ↔ x ∈ l :=
  (List.perm_insertionSort strLeP l).mem_iff

/-- When the account never appears as a sender, the fallback subtable is
exactly its incoming subtable. -/
theorem sub_eq_inc (df : List Tx) (acct : String)
    (h2 : ∀ t ∈ df, t.sender ≠ acct) :
    df.filter (fun t => t.sender == acct || t.receiver == acct) =
      df.filter (fun t => t.receiver == acct) := by
  apply List.filter_congr
  intro t ht
  have hs : (t.sender == acct) = false := by
    cases hbe : t.sender == acct with
    | false => rfl
    | true => exact absurd (eq_of_beq hbe) (h2 t ht)
  rw [hs, Bool.false_or]

/-- The pre-pass velocity entry agrees with the fallback velocity for an
account that is in the suspect pool, never sends, and whose incoming
senders are pairwise distinct. -/
theorem velCounts_eq_fallback (df : List Tx) (ids : List String) (acct : String)
    (h1 : acct ∈ ids) (h2 : ∀ t ∈ df, t.sender ≠ acct)
    (h3 : ((df.filter (fun t => t.receiver == acct)).map Tx.sender).Nodup) :
    getD (velCounts df ids) acct 0 = fallbackVel df acct := by
  have hfb : fallbackVel df acct =
      (if (df.filter (fun t => t.receiver == acct)).isEmpty then 0
       else
        (List.range (((df.filter (fun t => t.receiver == acct)).map
            Tx.ts).insertionSort intLeP).length).foldl
          (fun mx r => max mx (r + 1 -
            winLeft (((df.filter (fun t => t.receiver == acct)).map
              Tx.ts).insertionSort intLeP) VELOCITY_WINDOW_SECONDS r)) 0) := by
    unfold fallbackVel
    rw [sub_eq_inc df acct h2]
  rw [hfb, ← maxWin_eq_fallback _ h3]
  by_cases hinc : ∃ t ∈ df, t.receiver = acct
  · obtain ⟨t, ht, hrecv⟩ := hinc
    have hkey : acct ∈ sortedReceivers (df.filter (fun t => ids.contains t.receiver)) := by
      unfold sortedReceivers
      rw [mem_sortStr, mem_firstDedup, List.mem_map]
      refine ⟨t, ?_, hrecv⟩
      rw [List.mem_filter]
      refine ⟨ht, ?_⟩
      rw [hrecv]
      exact List.elem_iff.mpr h1
    unfold velCounts
    exact getD_map_mem _ _ _ hkey
  · have hnil : df.filter (fun t => t.receiver == acct) = [] := by
      rw [List.filter_eq_nil_iff]
      intro t ht hbe
      exact hinc ⟨t, ht, eq_of_beq hbe⟩
    have hnkey : acct ∉ sortedReceivers (df.filter (fun t => ids.contains t.receiver)) := by
      intro hk
      unfold sortedReceivers at hk
      rw [mem_sortStr, mem_firstDedup, List.mem_map] at hk
      obtain ⟨t, htf, hrecv⟩ := hk
      exact hinc ⟨t, (List.mem_filter.mp htf).1, hrecv⟩
    unfold velCounts
    rw [getD_map_not_mem _ _ _ hnkey, hnil]
    rfl

/-- **C10, counterexample.** The two velocity paths of
`compute_suspicion_score` are *not* equivalent: for an account outside the
suspect pool (here the receiver of a single transaction, which triggers no
pattern), the pre-pass table has no entry and yields velocity score 0,
while the fallback path counts the one row and yields 2.5.  (The paths also
diverge on accounts that send, because the fallback counts rows in both
directions while the pre-pass counts distinct senders of incoming rows
only.) -/
theorem C10_velocity_paths_counterexample :
    ∃ (df0 : List Tx) (acct : String),
      (compute_suspicion_score acct (mkCtx df0).g (mkCtx df0).df (mkCtx df0).cyc
          (mkCtx df0).smurf (mkCtx df0).shells
          (some (mkCtx df0).pre)).velocity_score ≠
      (compute_suspicion_score acct (mkCtx df0).g (mkCtx df0).df (mkCtx df0).cyc
          (mkCtx df0).smurf (mkCtx df0).shells none).velocity_score :=
  ⟨[⟨"ACC_B", "ACC_A", 500, 0⟩], "ACC_A", by decide⟩

/-- **C10, amended.** The two velocity paths agree for every account that
(i) is in the suspect pool (so the pre-pass covers it), (ii) never appears
as a sender, and (iii) receives from pairwise-distinct senders: then the
fallback row count equals the pre-pass distinct-sender count on every
window, and the velocity scores coincide. -/
theorem C10_velocity_amended (df0 : List Tx) (acct : String)
    (h1 : acct ∈ ctxAllIds df0)
    (h2 : ∀ t ∈ ctxDf df0, t.sender ≠ acct)
    (h3 : (((ctxDf df0).filter (fun t => t.receiver == acct)).map
      Tx.sender).Nodup) :
    (scOf (mkCtx df0) acct).velocity_score =
    (compute_suspicion_score acct (mkCtx df0).g (mkCtx df0).df (mkCtx df0).cyc
        (mkCtx df0).smurf (mkCtx df0).shells none).velocity_score := by
  show pyRound (velScoreOf (velOf acct (mkCtx df0).df (some (mkCtx df0).pre))) 2 =
    pyRound (velScoreOf (velOf acct (mkCtx df0).df none)) 2
  have hvel : velOf acct (mkCtx df0).df (some (mkCtx df0).pre) =
      velOf acct (mkCtx df0).df none := by
    show getD (mkCtx df0).pre.velocity_counts acct 0 =
      fallbackVel (mkCtx df0).df acct
    have hpre : (mkCtx df0).pre.velocity_counts =
        velCounts (ctxDf df0) (ctxAllIds df0) := rfl
    have hdf : (mkCtx df0).df = ctxDf df0 := rfl
    rw [hpre, hdf]
    exact velCounts_eq_fallback (ctxDf df0) (ctxAllIds df0) acct h1 h2 h3
  rw [hvel]

/-- Witness for the amended C10: the fan-in hub of `hubBatch` is in the
suspect pool, only receives, and its ten senders are distinct, so both
velocity paths give it the same (capped) velocity score. -/
theorem C10_velocity_amended_witness :
    (scOf (mkCtx hubBatch) "ACC_H").velocity_score =
    (compute_suspicion_score "ACC_H" (mkCtx hubBatch).g (mkCtx hubBatch).df
        (mkCtx hubBatch).cyc (mkCtx hubBatch).smurf (mkCtx hubBatch).shells
        none).velocity_score :=
  C10_velocity_amended hubBatch "ACC_H" (by decide) (by decide) (by decide)

/-! ## C9 — determinism of `run` and the set-iteration orders

The pipeline iterates several Python **sets**, whose order depends on the
process hash seed: the shell-pot set in `detect_shell_chains` (line 237,
whose order fixes the insertion order of `shell_map` and hence the order
in which `run` labels the shell rings), and the suspect-id set `all_ids`
in the main loop (line 433).  `detect_shell_chains_from` / `mkCtxFrom` /
`runFrom` expose these two orders as parameters (`potOrd`, `ids`); `run`
is the canonical instance of both (`run_canon`).  Further seed-dependent
ties exist but are determinized (to sorted / list order) in this
embedding and **not** covered by the amended claim: the member-set
iteration of `detect_mastermind` breaks exact composite ties (line 304,
strict `>`), and the degree-sorts of `detect_cycles` break equal-degree
ties in candidate order.  The lemmas below show which parts of the result
are independent of the suspect-loop order; the counterexample shows the
pot order moves ring labels, so `fraud_rings` itself is seed-dependent. -/

theorem bool_eq_of_iff {a b : Bool} (h : a = true ↔ b = true) : a = b := by
  cases a <;> cases b <;> simp_all

theorem perm_any {α : Type} {l₁ l₂ : List α} (h : l₁.Perm l₂) (p : α → Bool) :
    l₁.any p = l₂.any p :=
  bool_eq_of_iff (by
    rw [List.any_eq_true, List.any_eq_true]
    exact ⟨fun ⟨x, hx, hp⟩ => ⟨x, h.mem_iff.mp hx, hp⟩,
           fun ⟨x, hx, hp⟩ => ⟨x, h.mem_iff.mpr hx, hp⟩⟩)

theorem perm_contains {l₁ l₂ : List String} (h : l₁.Perm l₂) (a : String) :
    l₁.contains a = l₂.contains a :=
  bool_eq_of_iff ⟨fun hc => List.elem_iff.mpr (h.mem_iff.mp (List.elem_iff.mp hc)),
                  fun hc => List.elem_iff.mpr (h.mem_iff.mpr (List.elem_iff.mp hc))⟩

theorem foldl_max_perm {l₁ l₂ : List ℚ} (h : l₁.Perm l₂) :
    ∀ a : ℚ, l₁.foldl max a = l₂.foldl max a := by
  induction h with
  | nil =>
      intro a
      rfl
  | cons x h ih =>
      intro a
      simp only [List.foldl_cons]
      exact ih _
  | swap x y t =>
      intro a
      simp only [List.foldl_cons]
      rw [max_assoc, max_comm y x, ← max_assoc]
  | trans h₁ h₂ ih₁ ih₂ =>
      intro a
      exact (ih₁ a).trans (ih₂ a)

theorem listMaxD_perm {l₁ l₂ : List ℚ} (h : l₁.Perm l₂) (d : ℚ) :
    listMaxD l₁ d = listMaxD l₂ d := by
  induction h with
  | nil => rfl
  | cons x h ih => exact foldl_max_perm h x
  | swap x y t =>
      show (x :: t).foldl max y = (y :: t).foldl max x
      simp only [List.foldl_cons]
      rw [max_comm y x]
  | trans h₁ h₂ ih₁ ih₂ => exact ih₁.trans ih₂

/-- The cycle-ring record only sees the suspect list through the maximum
of the member scores, so any reordering gives the same record. -/
theorem cycleRingRecord_perm (df : List Tx) (mm : List (String × MmEntry))
    (p : String × List String) {s₁ s₂ : List Suspect} (h : s₁.Perm s₂) :
    cycleRingRecord df s₁ mm p = cycleRingRecord df s₂ mm p := by
  show Ring.mk p.1 p.2 "cycle"
      (pyRound (listMaxD ((s₁.filter
        (fun s => p.2.contains s.account_id)).map Suspect.suspicion_score) 50) 1)
      ((mm.find? (fun q => q.1 == p.1)).map (fun q => q.2.account_id))
      (txWithin df p.2).length
      (pyRound (((txWithin df p.2).map Tx.amount).sum) 2) =
    Ring.mk p.1 p.2 "cycle"
      (pyRound (listMaxD ((s₂.filter
        (fun s => p.2.contains s.account_id)).map Suspect.suspicion_score) 50) 1)
      ((mm.find? (fun q => q.1 == p.1)).map (fun q => q.2.account_id))
      (txWithin df p.2).length
      (pyRound (((txWithin df p.2).map Tx.amount).sum) 2)
  rw [listMaxD_perm ((h.filter (fun s => p.2.contains s.account_id)).map
    Suspect.suspicion_score) 50]

/-- Two assembly states that agree on rings, `ring_map` and the counter
and whose suspect lists are permutations of each other. -/
def AsmRel (st₁ st₂ : AsmState) : Prop :=
  st₁.ringsL = st₂.ringsL ∧ st₁.rmap = st₂.rmap ∧ st₁.ctr = st₂.ctr ∧
  st₁.suspects.Perm st₂.suspects

def PairRel (st₁ st₂ : AsmState × List String) : Prop :=
  AsmRel st₁.1 st₂.1 ∧ st₁.2 = st₂.2

theorem foldl_rel {α σ : Type} (R : σ → σ → Prop) (f : σ → α → σ)
    (hf : ∀ (s₁ s₂ : σ) (a : α), R s₁ s₂ → R (f s₁ a) (f s₂ a)) :
    ∀ (l : List α) (s₁ s₂ : σ), R s₁ s₂ → R (l.foldl f s₁) (l.foldl f s₂) := by
  intro l
  induction l with
  | nil =>
      intro s₁ s₂ h
      exact h
  | cons x xs ih =>
      intro s₁ s₂ h
      exact ih _ _ (hf _ _ _ h)

theorem attachStep_rel (rid m : String) {st₁ st₂ : AsmState}
    (h : AsmRel st₁ st₂) : AsmRel (attachStep rid st₁ m) (attachStep rid st₂ m) := by
  obtain ⟨hr, hm, hc, hs⟩ := h
  unfold attachStep
  rw [hm]
  split_ifs with h1
  · exact ⟨hr, hm, hc, hs⟩
  · exact ⟨hr, rfl, hc, hs.map (ringIdUpd rid m)⟩

theorem attachMembers_rel (rid : String) (mbrs : List String) {st₁ st₂ : AsmState}
    (h : AsmRel st₁ st₂) :
    AsmRel (attachMembers st₁ rid mbrs) (attachMembers st₂ rid mbrs) := by
  unfold attachMembers
  exact foldl_rel AsmRel (attachStep rid)
    (fun s₁ s₂ a ha => attachStep_rel rid a ha) mbrs st₁ st₂ h

theorem emitRing_rel (ring : Ring) (mbrs : List String) {st₁ st₂ : AsmState}
    (h : AsmRel st₁ st₂) : AsmRel (emitRing st₁ ring mbrs) (emitRing st₂ ring mbrs) := by
  obtain ⟨hr, hm, hc, hs⟩ := h
  unfold emitRing
  exact attachMembers_rel ring.ring_id mbrs ⟨by rw [hr], hm, by rw [hc], hs⟩

theorem smurfStep_rel (ctx : Ctx) (e : String × List String) {st₁ st₂ : AsmState}
    (h : AsmRel st₁ st₂) : AsmRel (smurfStep ctx st₁ e) (smurfStep ctx st₂ e) := by
  obtain ⟨hr, hm, hc, hs⟩ := h
  unfold smurfStep
  rw [hm, hc]
  split_ifs <;>
    first
      | exact ⟨hr, hm, hc, hs⟩
      | exact emitRing_rel _ _ ⟨hr, hm, hc, hs⟩

theorem shellStep_rel (ctx : Ctx) (a : String) {st₁ st₂ : AsmState × List String}
    (h : PairRel st₁ st₂) : PairRel (shellStep ctx st₁ a) (shellStep ctx st₂ a) := by
  obtain ⟨⟨hr, hm, hc, hs⟩, h2⟩ := h
  unfold shellStep
  rw [h2, hm, hc]
  split_ifs
  · exact ⟨⟨hr, hm, hc, hs⟩, h2⟩
  · exact ⟨⟨hr, hm, hc, hs⟩, rfl⟩
  · exact ⟨emitRing_rel _ _ ⟨hr, hm, hc, hs⟩, rfl⟩

/-- Assembling over two iteration orders of the same suspect-id set gives
identical rings, `ring_map` and counter, and permuted suspects. -/
theorem assemble_rel (ctx : Ctx) {ids₁ ids₂ : List String} (h : ids₁.Perm ids₂) :
    AsmRel (assemble ctx ids₁) (assemble ctx ids₂) := by
  have hs0 : (ids₁.filterMap (mkSuspect ctx)).Perm (ids₂.filterMap (mkSuspect ctx)) :=
    h.filterMap (mkSuspect ctx)
  have hrec : cycleRingRecord ctx.df (ids₁.filterMap (mkSuspect ctx)) ctx.mm =
      cycleRingRecord ctx.df (ids₂.filterMap (mkSuspect ctx)) ctx.mm :=
    funext (fun p => cycleRingRecord_perm ctx.df ctx.mm p hs0)
  unfold assemble
  refine (foldl_rel PairRel (shellStep ctx)
    (fun s₁ s₂ a ha => shellStep_rel ctx a ha) (ctx.shells.map Prod.fst) _ _ ?_).1
  refine ⟨?_, rfl⟩
  exact foldl_rel AsmRel (smurfStep ctx)
    (fun s₁ s₂ a ha => smurfStep_rel ctx a ha) ctx.smurf _ _
    ⟨by rw [hrec], rfl, rfl, hs0⟩

/-- Two post-filter states that agree on rings and the false-positive
counter and whose suspect lists are permutations of each other. -/
def PFRel (p₁ p₂ : PF) : Prop :=
  p₁.suspects.Perm p₂.suspects ∧ p₁.ringsL = p₂.ringsL ∧ p₁.fp = p₂.fp

theorem dropRings_rel (rids : List String) {p₁ p₂ : PF} (h : PFRel p₁ p₂) :
    PFRel (dropRings rids p₁) (dropRings rids p₂) := by
  obtain ⟨hs, hl, hf⟩ := h
  refine ⟨?_, ?_, ?_⟩
  · show (p₁.suspects.filter (fun s => !ringIdIn rids s)).Perm
        (p₂.suspects.filter (fun s => !ringIdIn rids s))
    exact hs.filter _
  · show p₁.ringsL.filter (fun r => !rids.contains r.ring_id) =
        p₂.ringsL.filter (fun r => !rids.contains r.ring_id)
    rw [hl]
  · show p₁.fp + (p₁.suspects.filter (ringIdIn rids)).length =
        p₂.fp + (p₂.suspects.filter (ringIdIn rids)).length
    rw [hf, (hs.filter _).length_eq]

theorem drop1_rel {p₁ p₂ : PF} (h : PFRel p₁ p₂) : PFRel (drop1 p₁) (drop1 p₂) := by
  unfold drop1
  rw [h.2.1]
  exact dropRings_rel _ h

theorem drop2_rel {p₁ p₂ : PF} (h : PFRel p₁ p₂) : PFRel (drop2 p₁) (drop2 p₂) := by
  unfold drop2
  rw [h.2.1]
  exact dropRings_rel _ h

theorem drop3_rel {p₁ p₂ : PF} (h : PFRel p₁ p₂) : PFRel (drop3 p₁) (drop3 p₂) := by
  unfold drop3
  rw [h.2.1]
  exact dropRings_rel _ h

/-- Rule 4 tests each ring against the *set* of patterns of its suspects,
so it only depends on the suspect list up to permutation. -/
theorem rule4Bad_eq {p₁ p₂ : PF} (h : PFRel p₁ p₂) : rule4Bad p₁ = rule4Bad p₂ := by
  obtain ⟨hs, hl, _⟩ := h
  unfold rule4Bad
  rw [hl]
  congr 1
  apply List.filter_congr
  intro r _
  rw [perm_any hs (fun s => s.ring_id == some r.ring_id &&
    s.detected_patterns.any (fun p => sigPats.contains p))]

theorem drop4_rel {p₁ p₂ : PF} (h : PFRel p₁ p₂) : PFRel (drop4 p₁) (drop4 p₂) := by
  unfold drop4
  rw [rule4Bad_eq h]
  exact dropRings_rel _ h

theorem dropOrphans_rel {p₁ p₂ : PF} (h : PFRel p₁ p₂) :
    PFRel (dropOrphans p₁) (dropOrphans p₂) := by
  obtain ⟨hs, hl, hf⟩ := h
  have horph : ((p₁.suspects.filter orphanCond).map Suspect.account_id).Perm
      ((p₂.suspects.filter orphanCond).map Suspect.account_id) :=
    (hs.filter orphanCond).map Suspect.account_id
  refine ⟨?_, ?_, ?_⟩
  · show (p₁.suspects.filter (fun s =>
        !((p₁.suspects.filter orphanCond).map
          Suspect.account_id).contains s.account_id)).Perm
      (p₂.suspects.filter (fun s =>
        !((p₂.suspects.filter orphanCond).map
          Suspect.account_id).contains s.account_id))
    have hcongr : p₁.suspects.filter (fun s =>
        !((p₁.suspects.filter orphanCond).map
          Suspect.account_id).contains s.account_id) =
      p₁.suspects.filter (fun s =>
        !((p₂.suspects.filter orphanCond).map
          Suspect.account_id).contains s.account_id) :=
      List.filter_congr (fun s _ => by rw [perm_contains horph s.account_id])
    rw [hcongr]
    exact hs.filter _
  · show p₁.ringsL = p₂.ringsL
    exact hl
  · show p₁.fp + ((p₁.suspects.filter orphanCond).map Suspect.account_id).length =
      p₂.fp + ((p₂.suspects.filter orphanCond).map Suspect.account_id).length
    rw [hf, horph.length_eq]

theorem whitelist_sweep_rel (wl : List String) {p₁ p₂ : PF} (h : PFRel p₁ p₂) :
    PFRel (whitelist_sweep wl p₁) (whitelist_sweep wl p₂) := by
  obtain ⟨hs, hl, hf⟩ := h
  unfold whitelist_sweep
  exact ⟨hs.filter _, by rw [hl], by rw [hf, (hs.filter _).length_eq]⟩

theorem postFilter_rel (wl : List String) {st₁ st₂ : AsmState}
    (h : AsmRel st₁ st₂) : PFRel (postFilter wl st₁) (postFilter wl st₂) := by
  obtain ⟨hr, hm, hc, hs⟩ := h
  unfold postFilter
  exact whitelist_sweep_rel wl (dropOrphans_rel (drop4_rel (drop3_rel (drop2_rel
    (drop1_rel ⟨hs, hr, rfl⟩)))))

instance : IsTotal Suspect scoreGeP :=
  ⟨fun a b => (le_total b.suspicion_score a.suspicion_score).imp
    decide_eq_true decide_eq_true⟩

instance : IsTrans Suspect scoreGeP :=
  ⟨fun _ _ _ hab hbc => decide_eq_true
    (le_trans (of_decide_eq_true hbc) (of_decide_eq_true hab))⟩

/-- Iteration order only permutes the final suspect list: rings and
summary are order-independent. -/
theorem runFrom_order (ctx : Ctx) {ids₁ ids₂ : List String} (h : ids₁.Perm ids₂) :
    (runFrom ctx ids₁).fraud_rings = (runFrom ctx ids₂).fraud_rings ∧
    (runFrom ctx ids₁).summary = (runFrom ctx ids₂).summary ∧
    (runFrom ctx ids₁).suspicious_accounts.Perm
      (runFrom ctx ids₂).suspicious_accounts := by
  obtain ⟨hs, hl, hf⟩ := postFilter_rel ctx.wl (assemble_rel ctx h)
  refine ⟨?_, ?_, ?_⟩
  · show (postFilter ctx.wl (assemble ctx ids₁)).ringsL =
      (postFilter ctx.wl (assemble ctx ids₂)).ringsL
    exact hl
  · show Summary.mk ctx.g.nodes.length
        (postFilter ctx.wl (assemble ctx ids₁)).suspects.length
        (postFilter ctx.wl (assemble ctx ids₁)).ringsL.length
        ((postFilter ctx.wl (assemble ctx ids₁)).suspects.filter
          Suspect.is_mastermind).length
        (postFilter ctx.wl (assemble ctx ids₁)).fp =
      Summary.mk ctx.g.nodes.length
        (postFilter ctx.wl (assemble ctx ids₂)).suspects.length
        (postFilter ctx.wl (assemble ctx ids₂)).ringsL.length
        ((postFilter ctx.wl (assemble ctx ids₂)).suspects.filter
          Suspect.is_mastermind).length
        (postFilter ctx.wl (assemble ctx ids₂)).fp
    rw [hl, hf, hs.length_eq, (hs.filter Suspect.is_mastermind).length_eq]
  · show ((postFilter ctx.wl (assemble ctx ids₁)).suspects.insertionSort
        scoreGeP).Perm
      ((postFilter ctx.wl (assemble ctx ids₂)).suspects.insertionSort scoreGeP)
    exact (List.perm_insertionSort scoreGeP _).trans
      (hs.trans (List.perm_insertionSort scoreGeP _).symm)

theorem ctxShells_canon (df0 : List Tx) :
    ctxShells df0 = ctxShellsFrom df0 (potCanon df0) := rfl

theorem ctxAllIds_canon (df0 : List Tx) :
    ctxAllIds df0 = ctxAllIdsFrom df0 (potCanon df0) := by
  unfold ctxAllIds ctxAllIdsFrom
  rw [ctxShells_canon]

theorem mkCtx_canon (df0 : List Tx) :
    mkCtx df0 = mkCtxFrom df0 (potCanon df0) := by
  unfold mkCtx mkCtxFrom
  rw [ctxShells_canon, ctxAllIds_canon]

/-- `run` is the order-exposed pipeline at the canonical iteration orders
(sorted pot listing, first-insertion suspect-id order). -/
theorem run_canon (df0 : List Tx) :
    run df0 = runFrom (mkCtxFrom df0 (potCanon df0))
      (mkCtxFrom df0 (potCanon df0)).allIds := by
  rw [run_eq, mkCtx_canon]

set_option maxHeartbeats 4000000 in
/-- **C9, counterexample.** `run` is *not* deterministic across processes.
Two set iterations are hash-seed dependent: (i) for a fraud triangle all
three suspects tie at the same score, the final stable sort keeps the
suspect-loop order, and two orders of the same id set order
`suspicious_accounts` differently; (ii) with two disjoint shell chains,
two orders of the same pot set make `run` label the two shell rings in
opposite order, so even `fraud_rings` differs across seeds. -/
theorem C9_determinism_counterexample :
    (∃ (df0 : List Tx) (potOrd ids₁ ids₂ : List String),
      potOrd.Perm (potCanon df0) ∧
      ids₁.Perm (ctxAllIdsFrom df0 potOrd) ∧
      ids₂.Perm (ctxAllIdsFrom df0 potOrd) ∧
      (runFrom (mkCtxFrom df0 potOrd) ids₁).suspicious_accounts ≠
        (runFrom (mkCtxFrom df0 potOrd) ids₂).suspicious_accounts) ∧
    (∃ (df0 : List Tx) (pot₁ pot₂ : List String),
      pot₁.Perm (potCanon df0) ∧ pot₂.Perm (potCanon df0) ∧
      (runFrom (mkCtxFrom df0 pot₁)
        (ctxAllIdsFrom df0 pot₁)).fraud_rings ≠
        (runFrom (mkCtxFrom df0 pot₂) (ctxAllIdsFrom df0 pot₂)).fraud_rings) :=
  ⟨⟨[⟨"CYC3_A", "CYC3_B", 5000, 0⟩, ⟨"CYC3_B", "CYC3_C", 5000, 10⟩,
     ⟨"CYC3_C", "CYC3_A", 5000, 20⟩],
    [], ["CYC3_A", "CYC3_B", "CYC3_C"], ["CYC3_C", "CYC3_B", "CYC3_A"],
    by decide, by decide, by decide, by decide⟩,
   ⟨[⟨"SH_A1", "SH_B1", 6000, 0⟩, ⟨"SH_B1", "SH_C1", 6000, 10⟩,
     ⟨"SH_C1", "SH_D1", 6000, 20⟩, ⟨"SH_A2", "SH_B2", 6000, 30⟩,
     ⟨"SH_B2", "SH_C2", 6000, 40⟩, ⟨"SH_C2", "SH_D2", 6000, 50⟩],
    ["SH_B1", "SH_B2", "SH_C1", "SH_C2"],
    ["SH_C2", "SH_C1", "SH_B2", "SH_B1"],
    by decide, by decide, by decide⟩⟩

/-- **C9, amended.** The output is a function of the input table together
with the iteration orders of the sets the pipeline walks.  With the
shell-pot order fixed (any listing of the pot set — it determines the
shell-ring label assignment, see the counterexample), the suspect-loop
order over `all_ids` changes nothing but the relative order of
equal-score suspects: `fraud_rings` and `summary` are identical, and the
`suspicious_accounts` lists are permutations of each other, each sorted
by descending suspicion score. -/
theorem C9_determinism_amended (df0 : List Tx) (potOrd ids₁ ids₂ : List String)
    (hp : potOrd.Perm (potCanon df0))
    (h₁ : ids₁.Perm (ctxAllIdsFrom df0 potOrd))
    (h₂ : ids₂.Perm (ctxAllIdsFrom df0 potOrd)) :
    (runFrom (mkCtxFrom df0 potOrd) ids₁).fraud_rings =
      (runFrom (mkCtxFrom df0 potOrd) ids₂).fraud_rings ∧
    (runFrom (mkCtxFrom df0 potOrd) ids₁).summary =
      (runFrom (mkCtxFrom df0 potOrd) ids₂).summary ∧
    (runFrom (mkCtxFrom df0 potOrd) ids₁).suspicious_accounts.Perm
      (runFrom (mkCtxFrom df0 potOrd) ids₂).suspicious_accounts ∧
    List.Sorted scoreGeP
      (runFrom (mkCtxFrom df0 potOrd) ids₁).suspicious_accounts := by
  obtain ⟨hrings, hsum, hperm⟩ :=
    runFrom_order (mkCtxFrom df0 potOrd) (h₁.trans h₂.symm)
  refine ⟨hrings, hsum, hperm, ?_⟩
  rw [runFrom_suspects]
  exact List.sorted_insertionSort scoreGeP _

/-- Witness for the amended C9: on the triangle (empty pot set), the two
iteration orders of the suspect-id set give equal rings and summary and
permuted, sorted suspects. -/
theorem C9_determinism_amended_witness :
    (runFrom (mkCtxFrom [⟨"CYC3_A", "CYC3_B", 5000, 0⟩,
        ⟨"CYC3_B", "CYC3_C", 5000, 10⟩, ⟨"CYC3_C", "CYC3_A", 5000, 20⟩] [])
      ["CYC3_A", "CYC3_B", "CYC3_C"]).fraud_rings =
    (runFrom (mkCtxFrom [⟨"CYC3_A", "CYC3_B", 5000, 0⟩,
        ⟨"CYC3_B", "CYC3_C", 5000, 10⟩, ⟨"CYC3_C", "CYC3_A", 5000, 20⟩] [])
      ["CYC3_C", "CYC3_B", "CYC3_A"]).fraud_rings ∧
    (runFrom (mkCtxFrom [⟨"CYC3_A", "CYC3_B", 5000, 0⟩,
        ⟨"CYC3_B", "CYC3_C", 5000, 10⟩, ⟨"CYC3_C", "CYC3_A", 5000, 20⟩] [])
      ["CYC3_A", "CYC3_B", "CYC3_C"]).summary =
    (runFrom (mkCtxFrom [⟨"CYC3_A", "CYC3_B", 5000, 0⟩,
        ⟨"CYC3_B", "CYC3_C", 5000, 10⟩, ⟨"CYC3_C", "CYC3_A", 5000, 20⟩] [])
      ["CYC3_C", "CYC3_B", "CYC3_A"]).summary ∧
    ((runFrom (mkCtxFrom [⟨"CYC3_A", "CYC3_B", 5000, 0⟩,
        ⟨"CYC3_B", "CYC3_C", 5000, 10⟩, ⟨"CYC3_C", "CYC3_A", 5000, 20⟩] [])
      ["CYC3_A", "CYC3_B", "CYC3_C"]).suspicious_accounts).Perm
    ((runFrom (mkCtxFrom [⟨"CYC3_A", "CYC3_B", 5000, 0⟩,
        ⟨"CYC3_B", "CYC3_C", 5000, 10⟩, ⟨"CYC3_C", "CYC3_A", 5000, 20⟩] [])
      ["CYC3_C", "CYC3_B", "CYC3_A"]).suspicious_accounts) ∧
    List.Sorted scoreGeP
      (runFrom (mkCtxFrom [⟨"CYC3_A", "CYC3_B", 5000, 0⟩,
          ⟨"CYC3_B", "CYC3_C", 5000, 10⟩, ⟨"CYC3_C", "CYC3_A", 5000, 20⟩] [])
        ["CYC3_A", "CYC3_B", "CYC3_C"]).suspicious_accounts :=
  C9_determinism_amended
    [⟨"CYC3_A", "CYC3_B", 5000, 0⟩, ⟨"CYC3_B", "CYC3_C", 5000, 10⟩,
     ⟨"CYC3_C", "CYC3_A", 5000, 20⟩]
    [] ["CYC3_A", "CYC3_B", "CYC3_C"] ["CYC3_C", "CYC3_B", "CYC3_A"]
    (by decide) (by decide) (by decide)

end FinForge
